import Mathlib

/-!
# Verification of the pcpanel audio core

Shallow embedding of the pcpanel repository's audio core:

* the plugin-side `LoopbackBuffer` (native addon, `part_010`),
* the user-space mixer `RingBuffer`, `SampleRateConverter` and the
  mixer render / input callbacks (`part_009`),
* the TypeScript `AudioRoutingManager` and its pure config-update
  helpers (`src/main/audio/types.ts`, `src/main/index.ts`).

Byte buffers are modelled per element (`Nat` for raw bytes, `ℚ` for
32-bit float samples: float arithmetic is idealized as exact rational
arithmetic).  A `memcpy` of `len` elements starting at array offset
`start` is modelled by `readChunk` / `storeChunk`; the two-chunk
wrap-around copies of the C++ code are kept as two explicit chunk
operations, exactly as in the source.
-/

/-- `readChunk d start len` is the list of `len` elements of the array `d`
starting at index `start` (one `memcpy` out of the buffer). -/
def readChunk {α : Type} (d : Nat → α) (start len : Nat) : List α :=
  (List.range len).map (fun j => d (start + j))

/-- `storeChunk d start src` stores the elements of `src` into the array `d`
at consecutive indices starting at `start` (one `memcpy` into the buffer). -/
def storeChunk {α : Type} : (Nat → α) → Nat → List α → (Nat → α)
  | d, _, [] => d
  | d, p, b :: bs => storeChunk (Function.update d p b) (p + 1) bs

theorem readChunk_length {α : Type} (d : Nat → α) (start len : Nat) :
    (readChunk d start len).length = len := by
  simp [readChunk]

theorem storeChunk_out {α : Type} (d : Nat → α) (p : Nat) (bs : List α) (i : Nat)
    (h : i < p ∨ p + bs.length ≤ i) : storeChunk d p bs i = d i := by
  induction bs generalizing d p with
  | nil => rfl
  | cons b bs ih =>
      have hlen : (b :: bs).length = bs.length + 1 := rfl
      have hne : i ≠ p := by omega
      have hrec : i < p + 1 ∨ (p + 1) + bs.length ≤ i := by omega
      calc storeChunk d p (b :: bs) i
          = storeChunk (Function.update d p b) (p + 1) bs i := rfl
        _ = Function.update d p b i := ih _ _ hrec
        _ = d i := by simp [Function.update, hne]

theorem storeChunk_in {α : Type} (d : Nat → α) (p : Nat) (bs : List α) (j : Nat)
    (hj : j < bs.length) : storeChunk d p bs (p + j) = bs.get ⟨j, hj⟩ := by
  induction bs generalizing d p j with
  | nil => exact absurd hj (by simp)
  | cons b bs ih =>
      cases j with
      | zero =>
          show storeChunk (Function.update d p b) (p + 1) bs p = _
          rw [storeChunk_out (Function.update d p b) (p + 1) bs p
            (Or.inl (by omega))]
          simp [Function.update]
      | succ k =>
          have hk : k < bs.length := by simpa using hj
          have harg : p + (k + 1) = (p + 1) + k := by omega
          show storeChunk (Function.update d p b) (p + 1) bs (p + (k + 1)) = _
          rw [harg, ih _ _ _ hk]
          rfl

/-- The two wrap-around `memcpy` chunks starting at `p % cap` deliver exactly
the elements at indices `(p + j) % cap` for `j < len`, when `len ≤ cap`. -/
theorem readChunk_wrap {α : Type} (d : Nat → α) (cap p len : Nat)
    (hcap : 0 < cap) (hlen : len ≤ cap) :
    readChunk d (p % cap) (min len (cap - p % cap)) ++
      readChunk d 0 (len - min len (cap - p % cap)) =
    (List.range len).map (fun j => d ((p + j) % cap)) := by
  have hpm : p % cap < cap := Nat.mod_lt _ hcap
  apply List.ext_get
  · simp only [List.length_append, readChunk_length, List.length_map,
      List.length_range]
    omega
  · intro j h1 h2
    have hjlen : j < len := by simpa using h2
    have hjcap : j < cap := lt_of_lt_of_le hjlen hlen
    have hmodj : (p + j) % cap = (p % cap + j) % cap := by
      conv_lhs => rw [Nat.add_mod]
      rw [Nat.mod_eq_of_lt hjcap]
    rw [List.get_eq_getElem, List.get_eq_getElem, List.getElem_map,
      List.getElem_range]
    by_cases hc : j < min len (cap - p % cap)
    · rw [List.getElem_append_left (by simpa [readChunk_length] using hc)]
      simp only [readChunk, List.getElem_map, List.getElem_range]
      have hlt : p % cap + j < cap := by omega
      congr 1
      rw [hmodj]
      exact (Nat.mod_eq_of_lt hlt).symm
    · have hKj : min len (cap - p % cap) ≤ j := Nat.le_of_not_lt hc
      rw [List.getElem_append_right (by simpa [readChunk_length] using hKj)]
      simp only [readChunk, List.getElem_map, List.getElem_range,
        readChunk_length, List.length_map, List.length_range, Nat.zero_add]
      have hlt2 : j - min len (cap - p % cap) < cap := by omega
      congr 1
      rw [hmodj,
        show p % cap + j = cap + (j - min len (cap - p % cap)) from by omega,
        Nat.add_mod_left, Nat.mod_eq_of_lt hlt2]

/-! ## The plugin-side loopback ring buffer (`LoopbackBuffer`, part_010)

Positions are free-running `size_t` counters (wrap at `2 ^ 64`); the
byte array has fixed size `kBufferSize = 48000 * 5 * 2 * sizeof(Float32)`. -/

/-- `2 ^ 64`, the wrap modulus of `size_t` position counters. -/
def U64 : Nat := 2 ^ 64

/-- `LoopbackBuffer::kBufferSize = kBufferFrames * kChannels * sizeof(Float32)`
with `kBufferFrames = 48000 * 5`. -/
def kLoopbackBufferSize : Nat := 48000 * 5 * 2 * 4

/-- State of the plugin-side `LoopbackBuffer` (part_010): a fixed byte array,
two `size_t` positions and the underrun counter. -/
structure LoopbackBuffer where
  data : Nat → Nat
  writePos : Nat
  readPos : Nat
  underrunCount : Nat

namespace LoopbackBuffer

/-- `available = writePos - readPos` under unsigned (`size_t`) subtraction
(the value is read twice in the source; it is a plain local there);
`if (available > kBufferSize) available = 0;`. -/
def available (st : LoopbackBuffer) : Nat :=
  if (st.writePos + U64 - st.readPos) % U64 > kLoopbackBufferSize then 0
  else (st.writePos + U64 - st.readPos) % U64

/-- `LoopbackBuffer::read(data, bytes)` : returns the bytes placed in `dst`
(real data in two `memcpy` chunks, then zero fill), the returned byte count
`toRead`, and the new state. -/
def read (st : LoopbackBuffer) (n : Nat) : List Nat × Nat × LoopbackBuffer :=
  let toRead := min n st.available
  let readIdx := st.readPos % kLoopbackBufferSize
  let firstChunk := min toRead (kLoopbackBufferSize - readIdx)
  let real := readChunk st.data readIdx firstChunk ++
    readChunk st.data 0 (toRead - firstChunk)
  let out := real ++ List.replicate (n - toRead) 0
  let rp' := if 0 < toRead then (st.readPos + toRead) % U64 else st.readPos
  let uc' := if toRead < n ∧ toRead = 0 then st.underrunCount + 1
    else st.underrunCount
  (out, toRead, { st with readPos := rp', underrunCount := uc' })

/-- The first `k` unread bytes of the loopback buffer, in FIFO order:
byte `j` lives at array index `(readPos + j) % kBufferSize`. -/
def queue (st : LoopbackBuffer) (k : Nat) : List Nat :=
  (List.range k).map (fun j => st.data ((st.readPos + j) % kLoopbackBufferSize))

end LoopbackBuffer

/-- C1: a `LoopbackBuffer::read(dst, n)` call, with `used` computed as
`writePos − readPos` under unsigned subtraction and treated as `0` whenever it
exceeds the capacity, delivers exactly `min n used` real bytes in FIFO order
into `dst`, zero-fills the remaining `n − delivered` bytes of `dst`, returns
the number of real bytes delivered, and increments the monotonically
non-decreasing underrun counter exactly when it delivered `0` real bytes
while `n > 0`. -/
theorem loopback_read_delivers_fifo_and_counts_underruns
    (st : LoopbackBuffer) (n : Nat) :
    (st.read n).2.1 = min n st.available ∧
    (st.read n).1 =
      st.queue (min n st.available) ++
        List.replicate (n - min n st.available) 0 ∧
    (st.read n).1.length = n ∧
    (st.read n).2.2.underrunCount =
      st.underrunCount + (if min n st.available = 0 ∧ 0 < n then 1 else 0) ∧
    st.underrunCount ≤ (st.read n).2.2.underrunCount := by
  have hcap : 0 < kLoopbackBufferSize := by norm_num [kLoopbackBufferSize]
  have havail : st.available ≤ kLoopbackBufferSize := by
    unfold LoopbackBuffer.available
    split <;> omega
  have hpm : st.readPos % kLoopbackBufferSize < kLoopbackBufferSize :=
    Nat.mod_lt _ hcap
  have htr : min n st.available ≤ kLoopbackBufferSize :=
    le_trans (Nat.min_le_right _ _) havail
  have hout : (st.read n).1 =
      readChunk st.data (st.readPos % kLoopbackBufferSize)
        (min (min n st.available)
          (kLoopbackBufferSize - st.readPos % kLoopbackBufferSize)) ++
      readChunk st.data 0
        (min n st.available - min (min n st.available)
          (kLoopbackBufferSize - st.readPos % kLoopbackBufferSize)) ++
      List.replicate (n - min n st.available) 0 := rfl
  have huc : (st.read n).2.2.underrunCount =
      if min n st.available < n ∧ min n st.available = 0 then
        st.underrunCount + 1
      else st.underrunCount := rfl
  have hwrap := readChunk_wrap st.data kLoopbackBufferSize st.readPos
    (min n st.available) hcap htr
  refine ⟨rfl, ?_, ?_, ?_, ?_⟩
  · rw [hout, hwrap]
    rfl
  · rw [hout]
    simp only [List.length_append, readChunk_length, List.length_replicate]
    omega
  · rw [huc]
    split_ifs with h1 h2 <;> omega
  · rw [huc]
    split <;> omega

/-! ## The user-space mixer ring buffer (`RingBuffer`, part_009)

Positions are stored already reduced modulo the capacity
(`writePos_.store((wp + toWrite) % capacity_)`); one element of capacity is
reserved to distinguish full from empty.  The C++ buffer is a byte ring; it
is modelled per element, generic in the element type. -/

/-- State of the user-space `RingBuffer` (part_009). -/
structure RingBuffer (α : Type) where
  capacity : Nat
  data : Nat → α
  writePos : Nat
  readPos : Nat

namespace RingBuffer

variable {α : Type}

/-- `used = (wp >= rp) ? (wp - rp) : (capacity_ - rp + wp)` — the same
expression appears in `write`, `read` and `getAvailable`. -/
def used (st : RingBuffer α) : Nat :=
  if st.writePos ≥ st.readPos then st.writePos - st.readPos
  else st.capacity - st.readPos + st.writePos

/-- `space = capacity_ - used - 1` (leave 1 element to distinguish full
from empty). -/
def space (st : RingBuffer α) : Nat := st.capacity - st.used - 1

/-- `RingBuffer::write(data, bytes)`: writes `min bytes space` elements in
two wrap-around `memcpy` chunks, then publishes
`writePos = (wp + toWrite) % capacity`; returns early when `toWrite == 0`. -/
def write (st : RingBuffer α) (src : List α) : RingBuffer α :=
  let toWrite := min src.length st.space
  if toWrite = 0 then st
  else
    let writeIdx := st.writePos % st.capacity
    let firstChunk := min toWrite (st.capacity - writeIdx)
    let taken := src.take toWrite
    let data' := storeChunk (storeChunk st.data writeIdx (taken.take firstChunk))
      0 (taken.drop firstChunk)
    { st with
      data := data'
      writePos := (st.writePos + toWrite) % st.capacity }

/-- `RingBuffer::read(data, bytes)`: delivers `min bytes available` elements
in two wrap-around `memcpy` chunks, publishes
`readPos = (rp + toRead) % capacity` when it read anything, and fills the
rest of `dst` with silence.  Returns (contents of `dst`, return value,
new state). -/
def read [Zero α] (st : RingBuffer α) (n : Nat) :
    List α × Nat × RingBuffer α :=
  let toRead := min n st.used
  if 0 < toRead then
    let readIdx := st.readPos % st.capacity
    let firstChunk := min toRead (st.capacity - readIdx)
    let real := readChunk st.data readIdx firstChunk ++
      readChunk st.data 0 (toRead - firstChunk)
    (real ++ List.replicate (n - toRead) 0, toRead,
      { st with readPos := (st.readPos + toRead) % st.capacity })
  else (List.replicate n 0, toRead, st)

/-- Well-formedness: positive capacity and positions already reduced modulo
the capacity (as stored by `write` and `read`). -/
def WF (st : RingBuffer α) : Prop :=
  0 < st.capacity ∧ st.writePos < st.capacity ∧ st.readPos < st.capacity

/-- The unread elements of the ring, in FIFO order: element `j` lives at
array index `(readPos + j) % capacity`. -/
def queue (st : RingBuffer α) : List α :=
  (List.range st.used).map (fun j => st.data ((st.readPos + j) % st.capacity))

theorem queue_length (st : RingBuffer α) : st.queue.length = st.used := by
  simp [queue]

theorem used_lt (st : RingBuffer α) (h : st.WF) : st.used < st.capacity := by
  obtain ⟨h0, hw, hr⟩ := h
  unfold used
  split <;> omega

theorem used_mod (st : RingBuffer α) (h : st.WF) :
    st.used = (st.capacity + st.writePos - st.readPos) % st.capacity := by
  obtain ⟨h0, hw, hr⟩ := h
  unfold used
  split
  · rw [show st.capacity + st.writePos - st.readPos =
      (st.writePos - st.readPos) + st.capacity from by omega,
      Nat.add_mod_right]
    exact (Nat.mod_eq_of_lt (by omega)).symm
  · rw [show st.capacity + st.writePos - st.readPos =
      st.capacity - st.readPos + st.writePos from by omega]
    exact (Nat.mod_eq_of_lt (by omega)).symm

end RingBuffer

/-- Addition by a constant is injective modulo `cap` on values below `cap`. -/
theorem mod_add_inj (cap x a b : Nat) (ha : a < cap) (hb : b < cap)
    (h : (x + a) % cap = (x + b) % cap) : a = b := by
  have hmp : Nat.ModEq cap a b := Nat.ModEq.add_left_cancel rfl h
  have := hmp
  unfold Nat.ModEq at this
  rw [Nat.mod_eq_of_lt ha, Nat.mod_eq_of_lt hb] at this
  exact this

namespace RingBuffer

variable {α : Type}

/-- The write position is the read position advanced by `used`, mod `cap`. -/
theorem writePos_eq (st : RingBuffer α) (h : st.WF) :
    st.writePos = (st.readPos + st.used) % st.capacity := by
  obtain ⟨h0, hw, hr⟩ := h
  rw [used_mod st ⟨h0, hw, hr⟩, Nat.add_mod_mod,
    show st.readPos + (st.capacity + st.writePos - st.readPos) =
      st.capacity + st.writePos from by omega,
    Nat.add_mod_left, Nat.mod_eq_of_lt hw]

end RingBuffer

theorem storeChunk_at {α : Type} (d : Nat → α) (p : Nat) (bs : List α) (i : Nat)
    (h1 : p ≤ i) (h2 : i < p + bs.length) :
    storeChunk d p bs i = bs.get ⟨i - p, by omega⟩ := by
  obtain ⟨j, hj⟩ : ∃ j, i = p + j := ⟨i - p, by omega⟩
  subst hj
  rw [storeChunk_in d p bs j (by omega)]
  simp only [show p + j - p = j from by omega]


namespace RingBuffer

variable {α : Type}

/-- The two-chunk wrap-around store of `write` puts element `t` of `src`
at array index `(wp + t) % cap`. -/
theorem ringStore_get (d : Nat → α) (cap wp : Nat) (src : List α) (K : Nat)
    (hcap : 0 < cap) (hwp : wp < cap) (hlen : src.length ≤ cap)
    (hKeq : K = min src.length (cap - wp))
    (t : Nat) (ht : t < src.length) :
    storeChunk (storeChunk d wp (src.take K)) 0 (src.drop K) ((wp + t) % cap) =
    src.get ⟨t, ht⟩ := by
  subst hKeq
  by_cases hK : t < min src.length (cap - wp)
  · have h1 : (wp + t) % cap = wp + t := Nat.mod_eq_of_lt (by omega)
    rw [h1, storeChunk_out _ 0 _ (wp + t) (Or.inr (by simp; omega)),
      storeChunk_at d wp _ (wp + t) (by omega) (by simp; omega)]
    simp only [List.get_eq_getElem, List.getElem_take,
      show wp + t - wp = t from by omega]
  · have hKeq2 : min src.length (cap - wp) = cap - wp := by omega
    have h2 : (wp + t) % cap = t - (cap - wp) := by
      rw [show wp + t = cap + (t - (cap - wp)) from by omega,
        Nat.add_mod_left, Nat.mod_eq_of_lt (by omega)]
    rw [hKeq2, h2, storeChunk_at _ 0 _ (t - (cap - wp)) (by omega)
      (by simp; omega)]
    simp only [List.get_eq_getElem, List.getElem_drop]
    congr 1
    omega

/-- The two-chunk wrap-around store of `write` leaves every array index
outside `{(wp + t) % cap : t < src.length}` unchanged. -/
theorem ringStore_untouched (d : Nat → α) (cap wp : Nat) (src : List α)
    (K : Nat) (hcap : 0 < cap) (hwp : wp < cap) (hlen : src.length ≤ cap)
    (hKeq : K = min src.length (cap - wp)) (i : Nat) (hi : i < cap)
    (hout : ∀ t, t < src.length → i ≠ (wp + t) % cap) :
    storeChunk (storeChunk d wp (src.take K)) 0 (src.drop K) i = d i := by
  subst hKeq
  have hsec : (src.drop (min src.length (cap - wp))).length ≤ i := by
    by_contra hlt
    push_neg at hlt
    simp only [List.length_drop] at hlt
    have hKeq2 : min src.length (cap - wp) = cap - wp := by omega
    refine hout (min src.length (cap - wp) + i) (by omega) ?_
    rw [hKeq2, show wp + ((cap - wp) + i) = cap + i from by omega,
      Nat.add_mod_left, Nat.mod_eq_of_lt hi]
  rw [storeChunk_out _ 0 _ i (Or.inr (by omega))]
  apply storeChunk_out
  by_contra hmid
  push_neg at hmid
  obtain ⟨h1, h2⟩ := hmid
  simp only [List.length_take] at h2
  refine hout (i - wp) (by omega) ?_
  rw [show wp + (i - wp) = i from by omega, Nat.mod_eq_of_lt hi]

theorem write_capacity (st : RingBuffer α) (src : List α) :
    (st.write src).capacity = st.capacity := by
  simp only [write]
  split <;> rfl

theorem write_readPos (st : RingBuffer α) (src : List α) :
    (st.write src).readPos = st.readPos := by
  simp only [write]
  split <;> rfl

theorem write_writePos (st : RingBuffer α) (src : List α) (h : st.WF) :
    (st.write src).writePos =
      (st.writePos + min src.length st.space) % st.capacity := by
  obtain ⟨h0, hw, hr⟩ := h
  simp only [write]
  split
  · next hz =>
      rw [hz, Nat.add_zero, Nat.mod_eq_of_lt hw]
  · rfl

theorem write_data_of_pos (st : RingBuffer α) (src : List α)
    (hz : ¬ min src.length st.space = 0) (h : st.WF) :
    (st.write src).data =
      storeChunk
        (storeChunk st.data st.writePos
          ((src.take (min src.length st.space)).take
            (min (min src.length st.space) (st.capacity - st.writePos))))
        0 ((src.take (min src.length st.space)).drop
            (min (min src.length st.space) (st.capacity - st.writePos))) := by
  obtain ⟨h0, hw, hr⟩ := h
  simp only [write, if_neg hz]
  rw [Nat.mod_eq_of_lt hw]

theorem write_WF (st : RingBuffer α) (src : List α) (h : st.WF) :
    (st.write src).WF := by
  obtain ⟨h0, hw, hr⟩ := h
  unfold WF
  refine ⟨?_, ?_, ?_⟩
  · rw [write_capacity]
    exact h0
  · rw [write_writePos st src ⟨h0, hw, hr⟩, write_capacity]
    exact Nat.mod_lt _ h0
  · rw [write_readPos, write_capacity]
    exact hr

theorem write_used (st : RingBuffer α) (src : List α) (h : st.WF) :
    (st.write src).used = st.used + min src.length st.space := by
  obtain ⟨h0, hw, hr⟩ := h
  have hul := used_lt st ⟨h0, hw, hr⟩
  have hspace : st.space = st.capacity - st.used - 1 := rfl
  have hsp : st.used + min src.length st.space ≤ st.capacity - 1 := by omega
  rw [used_mod (st.write src) (write_WF st src ⟨h0, hw, hr⟩),
    write_capacity, write_readPos, write_writePos st src ⟨h0, hw, hr⟩,
    show st.capacity + (st.writePos + min src.length st.space) % st.capacity
      - st.readPos = (st.capacity - st.readPos) +
        (st.writePos + min src.length st.space) % st.capacity from by omega,
    Nat.add_mod_mod,
    show st.capacity - st.readPos + (st.writePos + min src.length st.space) =
      (st.capacity + st.writePos - st.readPos) + min src.length st.space from
      by omega,
    ← Nat.mod_add_mod, ← used_mod st ⟨h0, hw, hr⟩,
    Nat.mod_eq_of_lt (by omega)]

theorem queue_get (st : RingBuffer α) (j : Nat) (hj : j < st.queue.length) :
    st.queue.get ⟨j, hj⟩ = st.data ((st.readPos + j) % st.capacity) := by
  simp [queue]

/-- Effect of `RingBuffer::write` on the unread contents: exactly the first
`min src.length space` elements of `src` are appended; nothing already in
the queue is overwritten. -/
theorem write_queue (st : RingBuffer α) (src : List α) (h : st.WF) :
    (st.write src).queue = st.queue ++ src.take (min src.length st.space) := by
  obtain ⟨h0, hw, hr⟩ := h
  have hul := used_lt st ⟨h0, hw, hr⟩
  have hspace : st.space = st.capacity - st.used - 1 := rfl
  have hsp : st.used + min src.length st.space ≤ st.capacity - 1 := by omega
  have hwpe := writePos_eq st ⟨h0, hw, hr⟩
  by_cases hz : min src.length st.space = 0
  · have heq : (st.write src) = st := by
      simp only [write, if_pos hz]
    rw [heq, hz]
    simp
  · have htklen : (src.take (min src.length st.space)).length =
        min src.length st.space := by
      simp
    apply List.ext_getElem
    · simp only [queue_length, write_used st src ⟨h0, hw, hr⟩,
        List.length_append, List.length_take]
      omega
    · intro j hj1 hj2
      have hj1u : j < st.used + min src.length st.space := by
        simpa [queue_length, write_used st src ⟨h0, hw, hr⟩] using hj1
      by_cases hcase : j < st.used
      · rw [List.getElem_append_left
          (show j < st.queue.length by rw [queue_length]; omega)]
        simp only [queue, List.getElem_map, List.getElem_range,
          write_capacity, write_readPos]
        rw [write_data_of_pos st src hz ⟨h0, hw, hr⟩,
          ringStore_untouched st.data st.capacity st.writePos
            (src.take (min src.length st.space))
            (min (min src.length st.space) (st.capacity - st.writePos))
            h0 hw (by rw [htklen]; omega) (by rw [htklen])
            ((st.readPos + j) % st.capacity) (Nat.mod_lt _ h0) ?_]
        intro t ht heq
        rw [htklen] at ht
        rw [hwpe, Nat.mod_add_mod,
          show st.readPos + st.used + t = st.readPos + (st.used + t) from
            by omega] at heq
        have := mod_add_inj st.capacity st.readPos j (st.used + t)
          (by omega) (by omega) heq
        omega
      · rw [List.getElem_append_right
          (show st.queue.length ≤ j by rw [queue_length]; omega)]
        simp only [queue_length]
        simp only [queue, List.getElem_map, List.getElem_range,
          write_capacity, write_readPos]
        rw [write_data_of_pos st src hz ⟨h0, hw, hr⟩,
          show (st.readPos + j) % st.capacity =
            (st.writePos + (j - st.used)) % st.capacity by
            rw [hwpe, Nat.mod_add_mod,
              show st.readPos + st.used + (j - st.used) = st.readPos + j from
                by omega],
          ringStore_get st.data st.capacity st.writePos
            (src.take (min src.length st.space))
            (min (min src.length st.space) (st.capacity - st.writePos))
            h0 hw (by rw [htklen]; omega) (by rw [htklen])
            (j - st.used) (by rw [htklen]; omega)]
        rw [List.get_eq_getElem]

end RingBuffer

namespace RingBuffer

variable {α : Type} [Zero α]

theorem read_ret (st : RingBuffer α) (n : Nat) :
    (st.read n).2.1 = min n st.used := by
  simp only [read]
  split <;> rfl

theorem read_capacity (st : RingBuffer α) (n : Nat) :
    (st.read n).2.2.capacity = st.capacity := by
  simp only [read]
  split <;> rfl

theorem read_writePos (st : RingBuffer α) (n : Nat) :
    (st.read n).2.2.writePos = st.writePos := by
  simp only [read]
  split <;> rfl

theorem read_data (st : RingBuffer α) (n : Nat) :
    (st.read n).2.2.data = st.data := by
  simp only [read]
  split <;> rfl

theorem read_readPos (st : RingBuffer α) (n : Nat) (h : st.WF) :
    (st.read n).2.2.readPos = (st.readPos + min n st.used) % st.capacity := by
  obtain ⟨h0, hw, hr⟩ := h
  simp only [read]
  split
  · rfl
  · next hz =>
      rw [show min n st.used = 0 from by omega, Nat.add_zero,
        Nat.mod_eq_of_lt hr]

theorem read_WF (st : RingBuffer α) (n : Nat) (h : st.WF) :
    (st.read n).2.2.WF := by
  obtain ⟨h0, hw, hr⟩ := h
  unfold WF
  refine ⟨?_, ?_, ?_⟩
  · rw [read_capacity]
    exact h0
  · rw [read_writePos, read_capacity]
    exact hw
  · rw [read_readPos st n ⟨h0, hw, hr⟩, read_capacity]
    exact Nat.mod_lt _ h0

/-- `RingBuffer::read` delivers the oldest `min n used` unread elements and
zero-fills the rest of `dst`. -/
theorem read_fst (st : RingBuffer α) (n : Nat) (h : st.WF) :
    (st.read n).1 = st.queue.take (min n st.used) ++
      List.replicate (n - min n st.used) 0 := by
  obtain ⟨h0, hw, hr⟩ := h
  have hul := used_lt st ⟨h0, hw, hr⟩
  have hqt : st.queue.take (min n st.used) =
      (List.range (min n st.used)).map
        (fun j => st.data ((st.readPos + j) % st.capacity)) := by
    rw [queue, ← List.map_take, List.take_range]
    rw [show min (min n st.used) st.used = min n st.used from by omega]
  simp only [read]
  split
  · rw [readChunk_wrap st.data st.capacity st.readPos (min n st.used) h0
      (by omega), hqt]
  · next hz =>
      rw [show min n st.used = 0 from by omega]
      simp
  done

theorem read_used (st : RingBuffer α) (n : Nat) (h : st.WF) :
    (st.read n).2.2.used = st.used - min n st.used := by
  obtain ⟨h0, hw, hr⟩ := h
  have hul := used_lt st ⟨h0, hw, hr⟩
  have hul2 := used_lt (st.read n).2.2 (read_WF st n ⟨h0, hw, hr⟩)
  rw [read_capacity] at hul2
  have hwpe := writePos_eq st ⟨h0, hw, hr⟩
  have hwpe2 := writePos_eq (st.read n).2.2 (read_WF st n ⟨h0, hw, hr⟩)
  rw [read_capacity, read_writePos, read_readPos st n ⟨h0, hw, hr⟩]
    at hwpe2
  have heq2 : ((st.readPos + min n st.used) % st.capacity +
      (st.used - min n st.used)) % st.capacity =
      ((st.readPos + min n st.used) % st.capacity +
        (st.read n).2.2.used) % st.capacity := by
    rw [Nat.mod_add_mod,
      show st.readPos + min n st.used + (st.used - min n st.used) =
        st.readPos + st.used from by omega, ← hwpe, hwpe2]
  exact (mod_add_inj st.capacity ((st.readPos + min n st.used) % st.capacity)
    (st.used - min n st.used) (st.read n).2.2.used (by omega) hul2 heq2).symm

/-- `RingBuffer::read` consumes exactly the delivered elements from the
front of the queue. -/
theorem read_queue (st : RingBuffer α) (n : Nat) (h : st.WF) :
    (st.read n).2.2.queue = st.queue.drop (min n st.used) := by
  obtain ⟨h0, hw, hr⟩ := h
  have hul := used_lt st ⟨h0, hw, hr⟩
  apply List.ext_getElem
  · simp only [queue_length, read_used st n ⟨h0, hw, hr⟩, List.length_drop]
  · intro j hj1 hj2
    have hju : j < st.used - min n st.used := by
      simpa [queue_length, read_used st n ⟨h0, hw, hr⟩] using hj1
    rw [List.getElem_drop]
    simp only [queue, List.getElem_map, List.getElem_range, read_capacity,
      read_data, read_readPos st n ⟨h0, hw, hr⟩]
    rw [Nat.mod_add_mod,
      show st.readPos + min n st.used + j =
        st.readPos + (min n st.used + j) from by omega]

end RingBuffer

/-- One client operation on a `RingBuffer`: a producer `write` or a
consumer `read` (any interleaving of the two is a list of these). -/
inductive RBOp (α : Type) where
  | write (src : List α)
  | read (n : Nat)

/-- Run a sequence of operations; returns the final buffer, the stream of
elements accepted by the writes (drops already removed), and the stream of
real (non-silence) elements delivered by the reads, both in order. -/
def runOps {α : Type} [Zero α] :
    RingBuffer α → List (RBOp α) → RingBuffer α × List α × List α
  | st, [] => (st, [], [])
  | st, RBOp.write src :: ops =>
      let r := runOps (st.write src) ops
      (r.1, src.take (min src.length st.space) ++ r.2.1, r.2.2)
  | st, RBOp.read n :: ops =>
      let r := runOps (st.read n).2.2 ops
      (r.1, r.2.1, ((st.read n).1).take ((st.read n).2.1) ++ r.2.2)

/-- A fresh `RingBuffer(sizeInFrames, channelCount, bytesPerFrame)` with
`capacity = size * bytesPerFrame` elements, zero-filled, positions `0`. -/
def RingBuffer.init (α : Type) (cap : Nat) (z : α) : RingBuffer α :=
  ⟨cap, fun _ => z, 0, 0⟩

theorem runOps_WF {α : Type} [Zero α] (ops : List (RBOp α))
    (st : RingBuffer α) (h : st.WF) : (runOps st ops).1.WF := by
  induction ops generalizing st with
  | nil => exact h
  | cons op ops ih =>
      cases op with
      | write src => exact ih (st.write src) (RingBuffer.write_WF st src h)
      | read n => exact ih (st.read n).2.2 (RingBuffer.read_WF st n h)

theorem runOps_capacity {α : Type} [Zero α] (ops : List (RBOp α))
    (st : RingBuffer α) : (runOps st ops).1.capacity = st.capacity := by
  induction ops generalizing st with
  | nil => rfl
  | cons op ops ih =>
      cases op with
      | write src =>
          show (runOps (st.write src) ops).1.capacity = _
          rw [ih, RingBuffer.write_capacity]
      | read n =>
          show (runOps (st.read n).2.2 ops).1.capacity = _
          rw [ih, RingBuffer.read_capacity]

/-- Stream invariant: what the reads delivered, followed by what is still
unread, is exactly the stream the writes accepted after what was unread at
the start. -/
theorem runOps_stream {α : Type} [Zero α] (ops : List (RBOp α))
    (st : RingBuffer α) (h : st.WF) :
    (runOps st ops).2.2 ++ (runOps st ops).1.queue =
      st.queue ++ (runOps st ops).2.1 := by
  induction ops generalizing st with
  | nil => simp [runOps]
  | cons op ops ih =>
      cases op with
      | write src =>
          show (runOps (st.write src) ops).2.2 ++
              (runOps (st.write src) ops).1.queue =
            st.queue ++ (src.take (min src.length st.space) ++
              (runOps (st.write src) ops).2.1)
          rw [ih (st.write src) (RingBuffer.write_WF st src h),
            RingBuffer.write_queue st src h, List.append_assoc]
      | read n =>
          show (st.read n).1.take ((st.read n).2.1) ++
              (runOps (st.read n).2.2 ops).2.2 ++
              (runOps (st.read n).2.2 ops).1.queue =
            st.queue ++ (runOps (st.read n).2.2 ops).2.1
          have hdel : (st.read n).1.take ((st.read n).2.1) =
              st.queue.take (min n st.used) := by
            rw [RingBuffer.read_fst st n h, RingBuffer.read_ret,
              List.take_append_eq_append_take]
            have hl : (st.queue.take (min n st.used)).length =
                min n st.used := by
              have := RingBuffer.used_lt st h
              simp [RingBuffer.queue_length]
            rw [List.take_take, Nat.min_self, hl, Nat.sub_self]
            simp
          rw [List.append_assoc, ih (st.read n).2.2
            (RingBuffer.read_WF st n h), RingBuffer.read_queue st n h, hdel,
            ← List.append_assoc, List.take_append_drop]

theorem init_WF {α : Type} (cap : Nat) (z : α) (hcap : 0 < cap) :
    (RingBuffer.init α cap z).WF := by
  unfold RingBuffer.WF RingBuffer.init
  exact ⟨hcap, hcap, hcap⟩

theorem init_queue {α : Type} (cap : Nat) (z : α) :
    (RingBuffer.init α cap z).queue = [] := by
  simp [RingBuffer.queue, RingBuffer.used, RingBuffer.init]

/-- C2: `RingBuffer::write(src, n)` appends exactly the first
`min n free` elements of `src` (the excess tail is silently dropped) and
never overwrites unread elements; hence across every interleaving of
`write` and `read` operations the stream of elements accepted into the
buffer equals the stream of real elements delivered by the reads followed
by the elements still unread — the delivered stream is a prefix of the
written stream, with no reordering and no duplication. -/
theorem ringbuffer_reads_follow_writes_in_order {α : Type} [Zero α]
    (cap : Nat) (hcap : 0 < cap) (z : α) (ops : List (RBOp α)) :
    (∀ (st : RingBuffer α) (src : List α), st.WF →
      (st.write src).queue = st.queue ++ src.take (min src.length st.space)) ∧
    (runOps (RingBuffer.init α cap z) ops).2.1 =
      (runOps (RingBuffer.init α cap z) ops).2.2 ++
        (runOps (RingBuffer.init α cap z) ops).1.queue ∧
    (runOps (RingBuffer.init α cap z) ops).2.2 <+:
      (runOps (RingBuffer.init α cap z) ops).2.1 := by
  have hstream := runOps_stream ops (RingBuffer.init α cap z)
    (init_WF cap z hcap)
  rw [init_queue, List.nil_append] at hstream
  refine ⟨fun st src h => RingBuffer.write_queue st src h, hstream.symm, ?_⟩
  exact ⟨(runOps (RingBuffer.init α cap z) ops).1.queue, hstream⟩

/-- Witness for C2 at a concrete instance: capacity 4 (3 usable elements),
a write of 3 elements, a short read, an overfull write whose tail is
dropped, and a draining read. -/
theorem ringbuffer_reads_follow_writes_in_order_witness :
    0 < 4 ∧
    ((∀ (st : RingBuffer Nat) (src : List Nat), st.WF →
      (st.write src).queue = st.queue ++ src.take (min src.length st.space)) ∧
    (runOps (RingBuffer.init Nat 4 0)
        [RBOp.write [1, 2, 3], RBOp.read 2, RBOp.write [7, 8, 9, 9],
          RBOp.read 10]).2.1 =
      (runOps (RingBuffer.init Nat 4 0)
        [RBOp.write [1, 2, 3], RBOp.read 2, RBOp.write [7, 8, 9, 9],
          RBOp.read 10]).2.2 ++
        (runOps (RingBuffer.init Nat 4 0)
        [RBOp.write [1, 2, 3], RBOp.read 2, RBOp.write [7, 8, 9, 9],
          RBOp.read 10]).1.queue ∧
    (runOps (RingBuffer.init Nat 4 0)
        [RBOp.write [1, 2, 3], RBOp.read 2, RBOp.write [7, 8, 9, 9],
          RBOp.read 10]).2.2 <+:
      (runOps (RingBuffer.init Nat 4 0)
        [RBOp.write [1, 2, 3], RBOp.read 2, RBOp.write [7, 8, 9, 9],
          RBOp.read 10]).2.1) :=
  ⟨by norm_num,
    ringbuffer_reads_follow_writes_in_order 4 (by norm_num) 0
      [RBOp.write [1, 2, 3], RBOp.read 2, RBOp.write [7, 8, 9, 9],
        RBOp.read 10]⟩

/-- C10: the user-space mixer `RingBuffer` keeps `used ≤ capacity − 1`
across every sequence of operations — one element of capacity is reserved
to distinguish full from empty, so a write stores at most
`capacity − used − 1` elements, the buffer never becomes completely full,
and a read never delivers more than `capacity − 1` elements. -/
theorem ringbuffer_used_le_capacity_sub_one {α : Type} [Zero α]
    (cap : Nat) (hcap : 0 < cap) (z : α) (ops : List (RBOp α)) :
    (runOps (RingBuffer.init α cap z) ops).1.used ≤ cap - 1 ∧
    (∀ (st : RingBuffer α) (src : List α), st.WF →
      (st.write src).queue.length =
        st.used + min src.length (st.capacity - st.used - 1)) ∧
    (∀ (st : RingBuffer α) (n : Nat), st.WF →
      (st.read n).2.1 ≤ st.capacity - 1) ∧
    (∀ (st : RingBuffer α), st.WF → st.used ≤ st.capacity - 1) := by
  refine ⟨?_, ?_, ?_, ?_⟩
  · have hWF := runOps_WF ops (RingBuffer.init α cap z) (init_WF cap z hcap)
    have hlt := RingBuffer.used_lt _ hWF
    rw [runOps_capacity] at hlt
    have hc : (RingBuffer.init α cap z).capacity = cap := rfl
    omega
  · intro st src h
    rw [RingBuffer.write_queue st src h]
    have hspace : st.space = st.capacity - st.used - 1 := rfl
    simp only [List.length_append, RingBuffer.queue_length, List.length_take]
    omega
  · intro st n h
    rw [RingBuffer.read_ret]
    have := RingBuffer.used_lt st h
    omega
  · intro st h
    have := RingBuffer.used_lt st h
    omega

/-- Witness for C10 at a concrete instance. -/
theorem ringbuffer_used_le_capacity_sub_one_witness :
    0 < 4 ∧
    ((runOps (RingBuffer.init Nat 4 0)
        [RBOp.write [1, 2, 3, 4, 5], RBOp.read 1]).1.used ≤ 4 - 1 ∧
    (∀ (st : RingBuffer Nat) (src : List Nat), st.WF →
      (st.write src).queue.length =
        st.used + min src.length (st.capacity - st.used - 1)) ∧
    (∀ (st : RingBuffer Nat) (n : Nat), st.WF →
      (st.read n).2.1 ≤ st.capacity - 1) ∧
    (∀ (st : RingBuffer Nat), st.WF → st.used ≤ st.capacity - 1)) :=
  ⟨by norm_num,
    ringbuffer_used_le_capacity_sub_one 4 (by norm_num) 0
      [RBOp.write [1, 2, 3, 4, 5], RBOp.read 1]⟩

/-! ## The linear-interpolation sample-rate converter (part_009)

`Float32`/`double` arithmetic is idealized as exact rational arithmetic.
Interleaved stereo sample buffers are flat lists; frame `i`, channel `ch`
lives at index `i * channels + ch`. -/

/-- State of a `SampleRateConverter`; `ratio_ = inputRate / outputRate` is
fixed by the constructor, `phase_` is the fractional read position. -/
structure SampleRateConverter where
  inputRate : ℚ
  outputRate : ℚ
  channels : Nat
  ratio : ℚ
  phase : ℚ

/-- One interpolated output frame: per channel,
`output = s0 + (s1 - s0) * frac` with `s0 = input[idx0 * ch + c]`,
`s1 = input[idx1 * ch + c]`. -/
def interpFrame (input : List ℚ) (c : Nat) (i0 i1 : Nat) (frac : ℚ) :
    List ℚ :=
  (List.range c).map (fun ch =>
    (input.getD (i0 * c + ch) 0) +
      ((input.getD (i1 * c + ch) 0) - (input.getD (i0 * c + ch) 0)) * frac)

/-- The interpolation loop of `SampleRateConverter::convert` for unequal
rates: at each step `idx0 = (size_t)phase_`; the loop stops when the output
budget is exhausted or `idx0` falls outside the input (the combined
`inputIdx < inputFrames` condition and `idx0 >= inputFrames` break of the
source); otherwise it emits one interpolated frame (with `idx1 = idx0 + 1`
clamped back to `idx0` at the end of the input) and advances
`phase_ += ratio_`.  Returns (output samples, frames produced, end phase). -/
def convertLoop (input : List ℚ) (inputFrames c : Nat) (ratio : ℚ) :
    ℚ → Nat → List ℚ × Nat × ℚ
  | phase, 0 => ([], 0, phase)
  | phase, m + 1 =>
      let i0 := (⌊phase⌋).toNat
      if i0 < inputFrames then
        let frac := phase - (i0 : ℚ)
        let i1 := if i0 + 1 ≥ inputFrames then i0 else i0 + 1
        let frame := interpFrame input c i0 i1 frac
        let r := convertLoop input inputFrames c ratio (phase + ratio) m
        (frame ++ r.1, r.2.1 + 1, r.2.2)
      else ([], 0, phase)

/-- `SampleRateConverter::convert(input, inputFrames, output,
maxOutputFrames)`: equal rates degrade to a `memcpy` of
`min(inputFrames, maxOutputFrames)` frames; otherwise run the
interpolation loop, then `phase_ -= inputFrames` clamped at `0`. -/
def SampleRateConverter.convert (st : SampleRateConverter) (input : List ℚ)
    (inputFrames maxOutputFrames : Nat) :
    List ℚ × Nat × SampleRateConverter :=
  if st.inputRate = st.outputRate then
    let framesToCopy := min inputFrames maxOutputFrames
    (input.take (framesToCopy * st.channels), framesToCopy, st)
  else
    let r := convertLoop input inputFrames st.channels st.ratio st.phase
      maxOutputFrames
    let p1 := r.2.2 - (inputFrames : ℚ)
    let p2 := if p1 < 0 then 0 else p1
    (r.1, r.2.1, { st with phase := p2 })

/-- The specified interpolation value at phase `p`:
`i = ⌊p⌋`, `f = p − i`, `i + 1` clamped to the last valid input frame,
`in[i] + (in[i+1] − in[i]) · f` per channel. -/
def lerpAt (input : List ℚ) (c inF : Nat) (p : ℚ) (ch : Nat) : ℚ :=
  (input.getD ((⌊p⌋).toNat * c + ch) 0) +
    ((input.getD (min ((⌊p⌋).toNat + 1) (inF - 1) * c + ch) 0) -
      (input.getD ((⌊p⌋).toNat * c + ch) 0)) * (p - ((⌊p⌋).toNat : ℚ))

theorem getD_take (l : List ℚ) (k j : Nat) (d : ℚ) (h : j < k) :
    (l.take k).getD j d = l.getD j d := by
  simp [List.getD_eq_getElem?_getD, List.getElem?_take, h]

theorem interpFrame_length (input : List ℚ) (c i0 i1 : Nat) (frac : ℚ) :
    (interpFrame input c i0 i1 frac).length = c := by
  simp [interpFrame]

theorem interpFrame_getD (input : List ℚ) (c i0 i1 : Nat) (frac : ℚ)
    (ch : Nat) (h : ch < c) :
    (interpFrame input c i0 i1 frac).getD ch 0 =
      (input.getD (i0 * c + ch) 0) +
        ((input.getD (i1 * c + ch) 0) - (input.getD (i0 * c + ch) 0)) *
          frac := by
  unfold interpFrame
  rw [List.getD_eq_getElem _ _ (by simpa using h)]
  simp

theorem convertLoop_spec (input : List ℚ) (inF c : Nat) (ratio : ℚ)
    (m : Nat) (phase : ℚ) :
    (convertLoop input inF c ratio phase m).1.length =
      (convertLoop input inF c ratio phase m).2.1 * c ∧
    (convertLoop input inF c ratio phase m).2.1 ≤ m ∧
    (convertLoop input inF c ratio phase m).2.2 =
      phase + ((convertLoop input inF c ratio phase m).2.1 : ℚ) * ratio ∧
    (∀ j ch, j < (convertLoop input inF c ratio phase m).2.1 → ch < c →
      (convertLoop input inF c ratio phase m).1.getD (j * c + ch) 0 =
        lerpAt input c inF (phase + (j : ℚ) * ratio) ch) := by
  induction m generalizing phase with
  | zero =>
      refine ⟨by simp [convertLoop], le_refl _, by simp [convertLoop], ?_⟩
      intro j ch hj
      simp [convertLoop] at hj
  | succ m ih =>
      by_cases hi : (⌊phase⌋).toNat < inF
      · have hunf : convertLoop input inF c ratio phase (m + 1) =
            (interpFrame input c ((⌊phase⌋).toNat)
                (if (⌊phase⌋).toNat + 1 ≥ inF then (⌊phase⌋).toNat
                  else (⌊phase⌋).toNat + 1)
                (phase - (((⌊phase⌋).toNat : ℚ))) ++
              (convertLoop input inF c ratio (phase + ratio) m).1,
              (convertLoop input inF c ratio (phase + ratio) m).2.1 + 1,
              (convertLoop input inF c ratio (phase + ratio) m).2.2) := by
          simp only [convertLoop, if_pos hi]
        obtain ⟨ihlen, ihcnt, ihph, ihval⟩ := ih (phase + ratio)
        rw [hunf]
        refine ⟨?_, ?_, ?_, ?_⟩
        · simp only [List.length_append, interpFrame_length]
          rw [ihlen]
          ring
        · simpa using Nat.add_le_add_right ihcnt 1
        · rw [ihph]
          push_cast
          ring
        · intro j ch hj hch
          dsimp only at hj ⊢
          cases j with
          | zero =>
              simp only [Nat.zero_mul, Nat.zero_add]
              rw [List.getD_append _ _ _ _
                (by rw [interpFrame_length]; exact hch)]
              rw [interpFrame_getD input c _ _ _ ch hch]
              have hz : phase + ((0 : Nat) : ℚ) * ratio = phase := by
                push_cast
                ring
              rw [hz]
              unfold lerpAt
              have hclamp : (if (⌊phase⌋).toNat + 1 ≥ inF then (⌊phase⌋).toNat
                  else (⌊phase⌋).toNat + 1) =
                  min ((⌊phase⌋).toNat + 1) (inF - 1) := by
                split <;> omega
              rw [hclamp]
          | succ k =>
              rw [List.getD_append_right _ _ _ _
                (by rw [interpFrame_length, Nat.succ_mul]; omega)]
              rw [interpFrame_length,
                show (k + 1) * c + ch - c = k * c + ch from by
                  rw [Nat.succ_mul]; omega]
              have hrec := ihval k ch (by omega) hch
              have hph2 : phase + ratio + (k : ℚ) * ratio =
                  phase + (((k + 1 : Nat)) : ℚ) * ratio := by
                push_cast
                ring
              rw [hrec, hph2]
      · have hunf : convertLoop input inF c ratio phase (m + 1) =
            ([], 0, phase) := by
          simp only [convertLoop, if_neg hi]
        rw [hunf]
        refine ⟨by simp, by dsimp only; omega, by simp, ?_⟩
        intro j ch hj
        dsimp only at hj
        omega

/-- C4: when `inputRate_ == outputRate_`, `convert` is the identity on the
frames it processes: the output is byte-identical to the corresponding
input (a `memcpy` of `min(inputFrames, maxOutputFrames)` frames), with no
interpolation and no state change. -/
theorem src_equal_rates_identity (st : SampleRateConverter) (input : List ℚ)
    (inF maxOut : Nat) (h : st.inputRate = st.outputRate) :
    (st.convert input inF maxOut).1 =
      input.take (min inF maxOut * st.channels) ∧
    (st.convert input inF maxOut).2.1 = min inF maxOut ∧
    (st.convert input inF maxOut).2.2 = st ∧
    (∀ j, j < min inF maxOut * st.channels →
      (st.convert input inF maxOut).1.getD j 0 = input.getD j 0) := by
  have hconv : st.convert input inF maxOut =
      (input.take (min inF maxOut * st.channels), min inF maxOut, st) := by
    simp only [SampleRateConverter.convert, if_pos h]
  rw [hconv]
  refine ⟨rfl, rfl, rfl, ?_⟩
  intro j hj
  exact getD_take input _ j 0 hj

/-- A concrete 48 kHz → 48 kHz converter, fresh from the constructor. -/
def srcSameRate : SampleRateConverter := ⟨48000, 48000, 2, 1, 0⟩

/-- Witness for C4: a 48 kHz → 48 kHz converter copies
`min(3, 2) = 2` stereo frames verbatim. -/
theorem src_equal_rates_identity_witness :
    srcSameRate.inputRate = srcSameRate.outputRate ∧
    ((srcSameRate.convert [1, 2, 3, 4, 5, 6] 3 2).1 =
      ([1, 2, 3, 4, 5, 6] : List ℚ).take (min 3 2 * srcSameRate.channels) ∧
    (srcSameRate.convert [1, 2, 3, 4, 5, 6] 3 2).2.1 = min 3 2 ∧
    (srcSameRate.convert [1, 2, 3, 4, 5, 6] 3 2).2.2 = srcSameRate ∧
    (∀ j, j < min 3 2 * srcSameRate.channels →
      (srcSameRate.convert [1, 2, 3, 4, 5, 6] 3 2).1.getD j 0 =
        ([1, 2, 3, 4, 5, 6] : List ℚ).getD j 0)) :=
  ⟨rfl, src_equal_rates_identity srcSameRate [1, 2, 3, 4, 5, 6] 3 2 rfl⟩

/-- C5: with `inputRate ≠ outputRate`, every produced output frame at
running phase `p = phase₀ + j·ratio` equals
`in[i] + (in[i+1] − in[i]) · f` per channel with `i = ⌊p⌋`, `f = p − i`,
and `i+1` clamped to the last valid input frame; the phase advances by
`ratio` per output frame, is decremented by the consumed `inputFrames`
after the loop, and never becomes negative. -/
theorem src_unequal_rates_lerp (st : SampleRateConverter) (input : List ℚ)
    (inF maxOut : Nat) (h : st.inputRate ≠ st.outputRate) :
    (st.convert input inF maxOut).2.1 ≤ maxOut ∧
    (st.convert input inF maxOut).1.length =
      (st.convert input inF maxOut).2.1 * st.channels ∧
    (∀ j ch, j < (st.convert input inF maxOut).2.1 → ch < st.channels →
      (st.convert input inF maxOut).1.getD (j * st.channels + ch) 0 =
        lerpAt input st.channels inF (st.phase + (j : ℚ) * st.ratio) ch) ∧
    (st.convert input inF maxOut).2.2.phase =
      max 0 (st.phase + ((st.convert input inF maxOut).2.1 : ℚ) * st.ratio -
        (inF : ℚ)) ∧
    0 ≤ (st.convert input inF maxOut).2.2.phase := by
  obtain ⟨hlen, hcnt, hph, hval⟩ :=
    convertLoop_spec input inF st.channels st.ratio maxOut st.phase
  have hconv : st.convert input inF maxOut =
      ((convertLoop input inF st.channels st.ratio st.phase maxOut).1,
       (convertLoop input inF st.channels st.ratio st.phase maxOut).2.1,
       { st with phase :=
          if (convertLoop input inF st.channels st.ratio st.phase
              maxOut).2.2 - (inF : ℚ) < 0 then 0
          else (convertLoop input inF st.channels st.ratio st.phase
              maxOut).2.2 - (inF : ℚ) }) := by
    simp only [SampleRateConverter.convert, if_neg h]
  rw [hconv]
  dsimp only
  refine ⟨hcnt, hlen, hval, ?_, ?_⟩
  · rw [hph]
    split
    · next hlt =>
        rw [max_eq_left (by linarith)]
    · next hge =>
        push_neg at hge
        rw [max_eq_right (by linarith)]
  · split
    · exact le_refl 0
    · next hge =>
        push_neg at hge
        linarith

/-- A concrete 44.1 kHz → 48 kHz converter, fresh from the constructor. -/
def srcDiffRate : SampleRateConverter := ⟨44100, 48000, 2, 44100 / 48000, 0⟩

/-- Witness for C5 at a concrete 44.1 kHz → 48 kHz conversion. -/
theorem src_unequal_rates_lerp_witness :
    srcDiffRate.inputRate ≠ srcDiffRate.outputRate ∧
    ((srcDiffRate.convert [1, 2, 3, 4] 2 3).2.1 ≤ 3 ∧
    (srcDiffRate.convert [1, 2, 3, 4] 2 3).1.length =
      (srcDiffRate.convert [1, 2, 3, 4] 2 3).2.1 * srcDiffRate.channels ∧
    (∀ j ch, j < (srcDiffRate.convert [1, 2, 3, 4] 2 3).2.1 →
        ch < srcDiffRate.channels →
      (srcDiffRate.convert [1, 2, 3, 4] 2 3).1.getD
          (j * srcDiffRate.channels + ch) 0 =
        lerpAt [1, 2, 3, 4] srcDiffRate.channels 2
          (srcDiffRate.phase + (j : ℚ) * srcDiffRate.ratio) ch) ∧
    (srcDiffRate.convert [1, 2, 3, 4] 2 3).2.2.phase =
      max 0 (srcDiffRate.phase +
        ((srcDiffRate.convert [1, 2, 3, 4] 2 3).2.1 : ℚ) * srcDiffRate.ratio -
        ((2 : Nat) : ℚ)) ∧
    0 ≤ (srcDiffRate.convert [1, 2, 3, 4] 2 3).2.2.phase) :=
  ⟨by norm_num [srcDiffRate],
    src_unequal_rates_lerp srcDiffRate [1, 2, 3, 4] 2 3
      (by norm_num [srcDiffRate])⟩

/-! ## The mixer render callback (`AudioMixer::OutputIOProc`, part_009)

One render cycle on one output buffer of `n` samples.  Per input channel
the bytes fetched from its ring (after optional sample-rate conversion)
are abstracted as the per-cycle sample list; channels whose ring read
returned 0 bytes simply carry an empty list, which mixes as silence. -/

/-- The per-cycle view of one mixer input channel as read by
`OutputIOProc`: the `enabled` atomic, whether `ringBuffer` is non-null,
the `gain` atomic, and the samples fetched this cycle. -/
structure MixInput where
  enabled : Bool
  hasRing : Bool
  gain : ℚ
  samples : List ℚ

/-- The clipping protection applied after the master-volume scale:
`if (s > 1.0f) s = 1.0f; else if (s < -1.0f) s = -1.0f;`. -/
def clip (x : ℚ) : ℚ := if x > 1 then 1 else if x < -1 then -1 else x

/-- `for (i = 0; i < samplesToMix && i < outputSampleCount; i++)
out[i] += src[i] * gain;` — sample-wise mix-in over the common prefix. -/
def mixInto : List ℚ → List ℚ → ℚ → List ℚ
  | out, [], _ => out
  | [], _, _ => []
  | o :: out, s :: ss, g => (o + s * g) :: mixInto out ss g

/-- One render cycle of `OutputIOProc` on an `n`-sample output buffer:
clear the buffer, mix in each enabled channel that has a ring buffer with
its gain, then scale by the master volume and clip. -/
def renderCycle (chs : List MixInput) (master : ℚ) (n : Nat) : List ℚ :=
  (chs.foldl
    (fun out ch =>
      if ch.enabled && ch.hasRing then mixInto out ch.samples ch.gain
      else out)
    (List.replicate n 0)).map (fun x => clip (x * master))

theorem mixInto_length (out s : List ℚ) (g : ℚ) :
    (mixInto out s g).length = out.length := by
  induction out generalizing s with
  | nil => cases s <;> rfl
  | cons o out ih =>
      cases s with
      | nil => rfl
      | cons x ss => simp [mixInto, ih]

theorem mixInto_getD (out s : List ℚ) (g : ℚ) (i : Nat)
    (hi : i < out.length) :
    (mixInto out s g).getD i 0 = out.getD i 0 + s.getD i 0 * g := by
  induction out generalizing s i with
  | nil => simp at hi
  | cons o out ih =>
      cases s with
      | nil => simp [mixInto]
      | cons x ss =>
          cases i with
          | zero => simp [mixInto]
          | succ k =>
              simp only [mixInto, List.getD_cons_succ]
              exact ih ss k (by simpa using hi)

theorem mixFold_length (chs : List MixInput) (out : List ℚ) :
    (chs.foldl
      (fun out ch =>
        if ch.enabled && ch.hasRing then mixInto out ch.samples ch.gain
        else out) out).length = out.length := by
  induction chs generalizing out with
  | nil => rfl
  | cons ch chs ih =>
      show (chs.foldl _ (if ch.enabled && ch.hasRing then _ else out)).length
        = _
      rw [ih]
      split <;> simp [mixInto_length]

theorem mixFold_getD (chs : List MixInput) (out : List ℚ) (i : Nat)
    (hi : i < out.length) :
    (chs.foldl
      (fun out ch =>
        if ch.enabled && ch.hasRing then mixInto out ch.samples ch.gain
        else out) out).getD i 0 =
    out.getD i 0 +
      ((chs.filter (fun ch => ch.enabled && ch.hasRing)).map
        (fun ch => ch.samples.getD i 0 * ch.gain)).sum := by
  induction chs generalizing out with
  | nil => simp
  | cons ch chs ih =>
      by_cases hc : ch.enabled && ch.hasRing
      · show (chs.foldl _ (if ch.enabled && ch.hasRing then _ else out)).getD
          i 0 = _
        rw [if_pos hc, ih (mixInto out ch.samples ch.gain)
          (by rw [mixInto_length]; exact hi),
          mixInto_getD out ch.samples ch.gain i hi]
        rw [List.filter_cons_of_pos (by simpa using hc)]
        simp [add_assoc]
      · show (chs.foldl _ (if ch.enabled && ch.hasRing then _ else out)).getD
          i 0 = _
        rw [if_neg hc, ih out hi,
          List.filter_cons_of_neg (by simpa using hc)]

theorem clip_le_one (x : ℚ) : clip x ≤ 1 := by
  unfold clip
  split_ifs <;> linarith

theorem neg_one_le_clip (x : ℚ) : -1 ≤ clip x := by
  unfold clip
  split_ifs <;> linarith

/-- C3: in a render cycle the output buffer is first cleared, then every
enabled input channel with a ring buffer contributes its fetched samples
scaled by its gain, summed sample-wise; every final output sample equals
that sum scaled by `master_volume` and clamped to `[−1, 1]`, so no emitted
sample lies outside `[−1, 1]`. -/
theorem mixer_render_sums_scales_and_clips (chs : List MixInput)
    (master : ℚ) (n : Nat) (i : Nat) (hi : i < n) :
    (renderCycle chs master n).length = n ∧
    (renderCycle chs master n).getD i 0 =
      clip ((((chs.filter (fun ch => ch.enabled && ch.hasRing)).map
        (fun ch => ch.samples.getD i 0 * ch.gain)).sum) * master) ∧
    -1 ≤ (renderCycle chs master n).getD i 0 ∧
    (renderCycle chs master n).getD i 0 ≤ 1 := by
  have hlen : (renderCycle chs master n).length = n := by
    unfold renderCycle
    rw [List.length_map, mixFold_length]
    simp
  have hfold := mixFold_getD chs (List.replicate n 0) i (by simpa using hi)
  have hmap : (renderCycle chs master n).getD i 0 =
      clip ((chs.foldl
        (fun out ch =>
          if ch.enabled && ch.hasRing then mixInto out ch.samples ch.gain
          else out) (List.replicate n 0)).getD i 0 * master) := by
    unfold renderCycle
    rw [List.getD_eq_getElem _ _ (by
      rw [List.length_map, mixFold_length]
      simpa using hi)]
    rw [List.getElem_map]
    rw [List.getD_eq_getElem _ _ (by
      rw [mixFold_length]
      simpa using hi)]
  rw [hmap, hfold]
  have hrep : (List.replicate n (0 : ℚ)).getD i 0 = 0 := by
    rw [List.getD_eq_getElem _ _ (by simpa using hi)]
    simp
  rw [hrep, zero_add]
  exact ⟨hlen, rfl, neg_one_le_clip _, clip_le_one _⟩

/-- Witness for C3: two channels (one disabled) mixed at master volume 2,
output sample 0. -/
theorem mixer_render_sums_scales_and_clips_witness :
    0 < 2 ∧
    ((renderCycle [⟨true, true, 1/2, [2, 3]⟩, ⟨false, true, 1, [5, 5]⟩]
        2 2).length = 2 ∧
    (renderCycle [⟨true, true, 1/2, [2, 3]⟩, ⟨false, true, 1, [5, 5]⟩]
        2 2).getD 0 0 =
      clip ((((([⟨true, true, 1/2, [2, 3]⟩, ⟨false, true, 1, [5, 5]⟩] :
          List MixInput).filter
        (fun ch => ch.enabled && ch.hasRing)).map
        (fun ch => ch.samples.getD 0 0 * ch.gain)).sum) * 2) ∧
    -1 ≤ (renderCycle [⟨true, true, 1/2, [2, 3]⟩, ⟨false, true, 1, [5, 5]⟩]
        2 2).getD 0 0 ∧
    (renderCycle [⟨true, true, 1/2, [2, 3]⟩, ⟨false, true, 1, [5, 5]⟩]
        2 2).getD 0 0 ≤ 1) :=
  ⟨by norm_num,
    mixer_render_sums_scales_and_clips
      [⟨true, true, 1/2, [2, 3]⟩, ⟨false, true, 1, [5, 5]⟩] 2 2 0
      (by norm_num)⟩

/-! ## The mixer input callback (`AudioMixer::InputIOProc`, part_009)

One buffer delivery on the input real-time thread.  The incoming byte
buffer is viewed as its `Float32` samples (modelled as `ℚ`); the channel's
user-space ring buffer holds samples.  The code stores
`rms = sampleCount > 0 ? sqrtf(sumSquares / sampleCount) : 0` in the
`rmsLevel_` atomic; `√` is a strictly monotone bijection on the
nonnegative reals, so the model keeps the radicand
(`rmsSqLevel = sumSquares / sampleCount`) in the state — which keeps the
definition executable — and the stored level is `Real.sqrt rmsSqLevel`. -/

/-- The per-channel state touched by `InputIOProc`: the `enabled` atomic,
the (possibly null) ring buffer, the `peakLevel_` atomic, the square of
the `rmsLevel_` atomic, and the `lastActivityTime_` atomic. -/
structure MixerChannel where
  enabled : Bool
  ring : Option (RingBuffer ℚ)
  peakLevel : ℚ
  rmsSqLevel : ℚ
  lastActivityTime : Nat

/-- One buffer delivery to `InputIOProc` for its channel: if the channel
has a ring buffer and is enabled, copy the buffer into the ring and, in
the same pass, compute peak (`if (absVal > peak) peak = absVal`),
`sumSquares += x·x`, and the `|x| > 0.001` activity flag; store the levels
and, if audio was detected, stamp the activity time with the current
steady clock `now`. -/
def processInputBuffer (ch : MixerChannel) (samples : List ℚ) (now : Nat) :
    MixerChannel :=
  match ch.ring with
  | none => ch
  | some r =>
      if ch.enabled then
        let peak := samples.foldl (fun p x => if |x| > p then |x| else p) 0
        let sumSquares := samples.foldl (fun s x => s + x * x) 0
        let hasAudio := samples.any (fun x => |x| > 1/1000)
        { ch with
          ring := some (r.write samples)
          peakLevel := peak
          rmsSqLevel :=
            if samples.length > 0 then sumSquares / samples.length else 0
          lastActivityTime := if hasAudio then now else ch.lastActivityTime }
      else ch

theorem peakFold_le (l : List ℚ) (a : ℚ) :
    a ≤ l.foldl (fun p x => if |x| > p then |x| else p) a ∧
    ∀ x ∈ l, |x| ≤ l.foldl (fun p x => if |x| > p then |x| else p) a := by
  induction l generalizing a with
  | nil => exact ⟨le_refl a, by simp⟩
  | cons y l ih =>
      have hstep : a ≤ (if |y| > a then |y| else a) ∧
          |y| ≤ (if |y| > a then |y| else a) := by
        split <;> constructor <;> linarith
      obtain ⟨ih1, ih2⟩ := ih (if |y| > a then |y| else a)
      refine ⟨le_trans hstep.1 ih1, ?_⟩
      intro x hx
      rcases List.mem_cons.mp hx with h | h
      · subst h
        exact le_trans hstep.2 ih1
      · exact ih2 x h

theorem peakFold_mem (l : List ℚ) (a : ℚ) :
    l.foldl (fun p x => if |x| > p then |x| else p) a = a ∨
    ∃ x ∈ l, l.foldl (fun p x => if |x| > p then |x| else p) a = |x| := by
  induction l generalizing a with
  | nil => exact Or.inl rfl
  | cons y l ih =>
      rcases ih (if |y| > a then |y| else a) with h | ⟨x, hx, hfx⟩
      · by_cases hy : |y| > a
        · right
          refine ⟨y, List.mem_cons_self y l, ?_⟩
          show l.foldl _ (if |y| > a then |y| else a) = |y|
          rw [h, if_pos hy]
        · left
          show l.foldl _ (if |y| > a then |y| else a) = a
          rw [h, if_neg hy]
      · right
        exact ⟨x, List.mem_cons_of_mem y hx, hfx⟩

theorem sqFold_eq (l : List ℚ) (a : ℚ) :
    l.foldl (fun s x => s + x * x) a = a + (l.map (fun x => x ^ 2)).sum := by
  induction l generalizing a with
  | nil => simp
  | cons y l ih =>
      show l.foldl _ (a + y * y) = _
      rw [ih (a + y * y)]
      simp [List.map_cons, List.sum_cons]
      ring

/-- Counterexample to C9 as stated: `InputIOProc` returns early when the
channel is not enabled (`!channel->enabled.load()`), so a buffer delivered
to a disabled channel is neither copied into the ring nor metered nor
stamped — here a buffer containing `1/2 > 0.001` leaves the channel, its
ring write position and its activity stamp unchanged, although copying it
would have advanced the ring's write position and stamping would have set
the clock to 7. -/
theorem input_callback_disabled_channel_ignores_buffer :
    (⟨false, some (RingBuffer.init ℚ 4 0), 0, 0, 0⟩ :
      MixerChannel).enabled = false ∧
    processInputBuffer ⟨false, some (RingBuffer.init ℚ 4 0), 0, 0, 0⟩
        [1/2] 7 =
      ⟨false, some (RingBuffer.init ℚ 4 0), 0, 0, 0⟩ ∧
    (∃ x ∈ ([1/2] : List ℚ), |x| > 1/1000) ∧
    ((processInputBuffer ⟨false, some (RingBuffer.init ℚ 4 0), 0, 0, 0⟩
        [1/2] 7).ring.map (fun r => r.writePos)) = some 0 ∧
    ((RingBuffer.init ℚ 4 0).write [1/2]).writePos = 1 ∧
    (processInputBuffer ⟨false, some (RingBuffer.init ℚ 4 0), 0, 0, 0⟩
        [1/2] 7).lastActivityTime = 0 := by
  refine ⟨rfl, rfl, ⟨1/2, by simp, ?_⟩, rfl, rfl, rfl⟩
  rw [abs_of_nonneg (by norm_num : (0 : ℚ) ≤ 1/2)]
  norm_num

/-- C9, amended: a buffer delivered to a Mixer Input Channel's input
callback is processed only when the channel is enabled and has a ring
buffer — a buffer delivered to a disabled channel, or to one without a
ring buffer, leaves the channel state entirely unchanged; when the
channel is enabled and has a ring buffer, the buffer is copied into the
ring and, in the same pass, the peak (`max |x|`) and RMS (`√(Σ x²/n)`,
stored by its square) over the buffer are computed and stored, and
`lastActivityTime` is stamped with the monotonic clock exactly when some
sample satisfies `|x| > 0.001`. -/
theorem input_callback_guard_copies_meters_and_stamps (ch : MixerChannel)
    (r : RingBuffer ℚ) (samples : List ℚ) (now : Nat)
    (hne : samples ≠ []) :
    (ch.enabled = false → processInputBuffer ch samples now = ch) ∧
    (ch.ring = none → processInputBuffer ch samples now = ch) ∧
    (ch.enabled = true → ch.ring = some r →
      (processInputBuffer ch samples now).ring = some (r.write samples) ∧
      (∀ x ∈ samples, |x| ≤ (processInputBuffer ch samples now).peakLevel) ∧
      (∃ x ∈ samples, |x| = (processInputBuffer ch samples now).peakLevel) ∧
      (processInputBuffer ch samples now).rmsSqLevel *
          (samples.length : ℚ) = (samples.map (fun x => x ^ 2)).sum ∧
      Real.sqrt ((processInputBuffer ch samples now).rmsSqLevel : ℝ) =
        Real.sqrt
          (((samples.map (fun x => x ^ 2)).sum /
            (samples.length : ℚ) : ℚ)) ∧
      (processInputBuffer ch samples now).lastActivityTime =
        (if ∃ x ∈ samples, |x| > 1/1000 then now
          else ch.lastActivityTime)) := by
  have hlen0 : 0 < samples.length := List.length_pos.mpr hne
  refine ⟨?_, ?_, ?_⟩
  · intro hdis
    unfold processInputBuffer
    cases hring : ch.ring with
    | none => rfl
    | some r0 =>
        simp only [hdis]
        rfl
  · intro hnone
    unfold processInputBuffer
    rw [hnone]
  · intro hen hr
    have hproc : processInputBuffer ch samples now =
        { ch with
          ring := some (r.write samples)
          peakLevel :=
            samples.foldl (fun p x => if |x| > p then |x| else p) 0
          rmsSqLevel :=
            if samples.length > 0 then
              samples.foldl (fun s x => s + x * x) 0 / samples.length
            else 0
          lastActivityTime :=
            if samples.any (fun x => |x| > 1/1000) then now
            else ch.lastActivityTime } := by
      unfold processInputBuffer
      rw [hr]
      simp only [hen, if_true]
    rw [hproc]
    dsimp only
    have hsq : samples.foldl (fun s x => s + x * x) 0 =
        (samples.map (fun x => x ^ 2)).sum := by
      rw [sqFold_eq samples 0, zero_add]
    have hrms : (if samples.length > 0 then
        samples.foldl (fun s x => s + x * x) 0 / (samples.length : ℚ)
        else 0) =
        (samples.map (fun x => x ^ 2)).sum / (samples.length : ℚ) := by
      rw [if_pos hlen0, hsq]
    refine ⟨rfl, (peakFold_le samples 0).2, ?_, ?_, ?_, ?_⟩
    · rcases peakFold_mem samples 0 with h | ⟨x, hx, hfx⟩
      · obtain ⟨y, l, rfl⟩ := List.exists_cons_of_ne_nil hne
        refine ⟨y, List.mem_cons_self y l, ?_⟩
        have h1 := ((peakFold_le (y :: l) 0).2) y (List.mem_cons_self y l)
        rw [h] at h1 ⊢
        have h2 : (0 : ℚ) ≤ |y| := abs_nonneg y
        linarith
      · exact ⟨x, hx, hfx.symm⟩
    · rw [hrms]
      field_simp
    · rw [hrms]
    · by_cases hex : ∃ x ∈ samples, |x| > 1/1000
      · rw [if_pos hex, if_pos]
        rw [List.any_eq_true]
        obtain ⟨x, hx, hgt⟩ := hex
        exact ⟨x, hx, by simpa using hgt⟩
      · rw [if_neg hex, if_neg]
        rw [List.any_eq_true]
        rintro ⟨x, hx, hgt⟩
        exact hex ⟨x, hx, by simpa using hgt⟩

/-- Witness for the amended C9: an enabled channel with a fresh 4-element
ring, delivered the buffer `[1/2, 0]` at clock 5. -/
theorem input_callback_guard_copies_meters_and_stamps_witness :
    ([1/2, 0] : List ℚ) ≠ [] ∧
    (((⟨true, some (RingBuffer.init ℚ 4 0), 0, 0, 0⟩ :
        MixerChannel).enabled = false →
      processInputBuffer ⟨true, some (RingBuffer.init ℚ 4 0), 0, 0, 0⟩
          [1/2, 0] 5 =
        ⟨true, some (RingBuffer.init ℚ 4 0), 0, 0, 0⟩) ∧
    ((⟨true, some (RingBuffer.init ℚ 4 0), 0, 0, 0⟩ :
        MixerChannel).ring = none →
      processInputBuffer ⟨true, some (RingBuffer.init ℚ 4 0), 0, 0, 0⟩
          [1/2, 0] 5 =
        ⟨true, some (RingBuffer.init ℚ 4 0), 0, 0, 0⟩) ∧
    ((⟨true, some (RingBuffer.init ℚ 4 0), 0, 0, 0⟩ :
        MixerChannel).enabled = true →
      (⟨true, some (RingBuffer.init ℚ 4 0), 0, 0, 0⟩ :
        MixerChannel).ring = some (RingBuffer.init ℚ 4 0) →
      (processInputBuffer ⟨true, some (RingBuffer.init ℚ 4 0), 0, 0, 0⟩
          [1/2, 0] 5).ring =
        some ((RingBuffer.init ℚ 4 0).write [1/2, 0]) ∧
      (∀ x ∈ ([1/2, 0] : List ℚ), |x| ≤
        (processInputBuffer ⟨true, some (RingBuffer.init ℚ 4 0), 0, 0, 0⟩
          [1/2, 0] 5).peakLevel) ∧
      (∃ x ∈ ([1/2, 0] : List ℚ), |x| =
        (processInputBuffer ⟨true, some (RingBuffer.init ℚ 4 0), 0, 0, 0⟩
          [1/2, 0] 5).peakLevel) ∧
      (processInputBuffer ⟨true, some (RingBuffer.init ℚ 4 0), 0, 0, 0⟩
          [1/2, 0] 5).rmsSqLevel * ((([1/2, 0] : List ℚ)).length : ℚ) =
        ((([1/2, 0] : List ℚ)).map (fun x => x ^ 2)).sum ∧
      Real.sqrt ((processInputBuffer
          ⟨true, some (RingBuffer.init ℚ 4 0), 0, 0, 0⟩
          [1/2, 0] 5).rmsSqLevel : ℝ) =
        Real.sqrt ((((([1/2, 0] : List ℚ)).map (fun x => x ^ 2)).sum /
          ((([1/2, 0] : List ℚ)).length : ℚ) : ℚ)) ∧
      (processInputBuffer ⟨true, some (RingBuffer.init ℚ 4 0), 0, 0, 0⟩
          [1/2, 0] 5).lastActivityTime =
        (@ite _ (∃ x ∈ ([1/2, 0] : List ℚ), |x| > 1/1000)
          (List.decidableBEx _ _) 5 0))) :=
  ⟨by simp,
    input_callback_guard_copies_meters_and_stamps
      ⟨true, some (RingBuffer.init ℚ 4 0), 0, 0, 0⟩
      (RingBuffer.init ℚ 4 0) [1/2, 0] 5 (by simp)⟩

/-! ## The TypeScript routing layer and the native mixer control surface

Pure model of the control-time state: `AudioRoutingConfig`
(`src/main/audio/types.ts`), the config-update helpers
(`src/main/index.ts`), the `AudioRoutingManager`
(`src/main/audio/types.ts`), and the control-side state of the native
`AudioMixer` (part_009).  The `Map<string, number>` of mixer handles
composed with the native handle registry is modelled as an association
list from mix id directly to the mixer state.  Hardware-device effects of
`start` (sample-rate queries, IOProc installation) are abstracted as
succeeding; `start` still fails when no concrete output device can be
resolved. -/

/-- `HardwareMappingType`: 'channel-volume' | 'mix-output' | 'channel-mute'. -/
inductive HardwareMappingType where
  | channelVolume
  | mixOutput
  | channelMute
deriving DecidableEq

/-- `InputChannel` of the persisted config. -/
structure InputChannelCfg where
  id : String
  deviceName : String
  channelName : String
  hardwareIndex : Nat
  volume : ℚ
  muted : Bool
deriving DecidableEq

/-- `MixBusChannel` of the persisted config. -/
structure MixBusChannelCfg where
  channelId : String
  enabled : Bool
  gainOverride : Option ℚ
deriving DecidableEq

/-- `MixBus` of the persisted config. -/
structure MixBusCfg where
  id : String
  name : String
  outputDeviceId : Option Nat
  channels : List MixBusChannelCfg
deriving DecidableEq

/-- One entry of `hardwareMapping`. -/
structure HardwareMapping where
  type : HardwareMappingType
  targetId : String
deriving DecidableEq

/-- `AudioRoutingConfig`; the index-keyed `hardwareMapping` record is an
association list. -/
structure AudioRoutingConfig where
  inputChannels : List InputChannelCfg
  mixBuses : List MixBusCfg
  hardwareMapping : List (Nat × HardwareMapping)
deriving DecidableEq

/-- A device as enumerated by `listAudioDevices()`. -/
structure NativeAudioDevice where
  id : Nat
  name : String
  hasOutput : Bool
  hasInput : Bool
deriving DecidableEq

/-- `std::max(0.0f, std::min(1.0f, gain))`. -/
def clamp01 (g : ℚ) : ℚ := max 0 (min 1 g)

/-- One `InputChannel` of the native `AudioMixer`, control-side view. -/
structure NativeInput where
  name : String
  gain : ℚ
  enabled : Bool
deriving DecidableEq

/-- Control-side state of a native `AudioMixer`. -/
structure NativeMixer where
  name : String
  inputs : List NativeInput
  masterVolume : ℚ
  outputDevice : Nat
  running : Bool
deriving DecidableEq

/-- `AudioMixer(name)`: no inputs, master volume 1, output device
`kAudioObjectUnknown = 0`, not running. -/
def createMixer (name : String) : NativeMixer := ⟨name, [], 1, 0, false⟩

/-- The loop body of `AudioMixer::setInputGain`: update the first input
with the given device name, clamping the gain to `[0, 1]`; report whether
a matching input was found. -/
def setInputGainList : List NativeInput → String → ℚ → Bool × List NativeInput
  | [], _, _ => (false, [])
  | ch :: rest, deviceName, g =>
      if ch.name = deviceName then
        (true, { ch with gain := clamp01 g } :: rest)
      else
        let r := setInputGainList rest deviceName g
        (r.1, ch :: r.2)

/-- `AudioMixer::setInputGain(deviceName, gain)`. -/
def NativeMixer.setInputGain (m : NativeMixer) (deviceName : String)
    (gain : ℚ) : Bool × NativeMixer :=
  let r := setInputGainList m.inputs deviceName gain
  (r.1, { m with inputs := r.2 })

/-- The loop body of `AudioMixer::setInputEnabled`. -/
def setInputEnabledList : List NativeInput → String → Bool →
    Bool × List NativeInput
  | [], _, _ => (false, [])
  | ch :: rest, deviceName, b =>
      if ch.name = deviceName then (true, { ch with enabled := b } :: rest)
      else
        let r := setInputEnabledList rest deviceName b
        (r.1, ch :: r.2)

/-- `AudioMixer::setInputEnabled(deviceName, enabled)`. -/
def NativeMixer.setInputEnabled (m : NativeMixer) (deviceName : String)
    (b : Bool) : Bool × NativeMixer :=
  let r := setInputEnabledList m.inputs deviceName b
  (r.1, { m with inputs := r.2 })

/-- `AudioMixer::addInput(deviceName)`: already-present names are kept;
otherwise a channel with gain 1, enabled, is appended (the CoreAudio
device lookup is abstracted as succeeding — callers only pass names of
enumerated devices). -/
def NativeMixer.addInput (m : NativeMixer) (deviceName : String) :
    NativeMixer :=
  if (m.inputs.find? (fun i => i.name = deviceName)).isSome then m
  else { m with inputs := m.inputs ++ [⟨deviceName, 1, true⟩] }

/-- `AudioMixer::setOutput(outputDevice)`: refused while running. -/
def NativeMixer.setOutput (m : NativeMixer) (outputDevice : Nat) :
    Bool × NativeMixer :=
  if m.running then (false, m)
  else (true, { m with outputDevice := outputDevice })

/-- `AudioMixer::start()`: no-op when already running; resolves an unknown
output device to the OS default; fails when none resolves.  The device
rate negotiation and IOProc installation are abstracted as succeeding. -/
def NativeMixer.start (m : NativeMixer) (defaultOutput : Option Nat) :
    Bool × NativeMixer :=
  if m.running then (true, m)
  else
    let dev := if m.outputDevice = 0 then defaultOutput.getD 0
      else m.outputDevice
    if dev = 0 then (false, m)
    else (true, { m with outputDevice := dev, running := true })

/-- `AudioMixer::stop()`: clears `running_` (IOProc teardown abstracted). -/
def NativeMixer.stop (m : NativeMixer) : NativeMixer :=
  { m with running := false }

/-- The stored gain of the input named `s`, if present. -/
def NativeMixer.gainOf (m : NativeMixer) (s : String) : Option ℚ :=
  (m.inputs.find? (fun i => i.name = s)).map (fun i => i.gain)

/-- `updateChannelVolume` (`src/main/index.ts`): clamp to `[0, 1]` and
update the matching channel. -/
def updateChannelVolume (config : AudioRoutingConfig) (channelId : String)
    (volume : ℚ) : AudioRoutingConfig :=
  { config with
    inputChannels := config.inputChannels.map (fun channel =>
      if channel.id = channelId then { channel with volume := clamp01 volume }
      else channel) }

/-- `updateChannelMuted` (`src/main/index.ts`). -/
def updateChannelMuted (config : AudioRoutingConfig) (channelId : String)
    (muted : Bool) : AudioRoutingConfig :=
  { config with
    inputChannels := config.inputChannels.map (fun channel =>
      if channel.id = channelId then { channel with muted := muted }
      else channel) }

/-- `updateMixBusOutput` (`src/main/index.ts`). -/
def updateMixBusOutput (config : AudioRoutingConfig) (mixId : String)
    (outputDeviceId : Option Nat) : AudioRoutingConfig :=
  { config with
    mixBuses := config.mixBuses.map (fun bus =>
      if bus.id = mixId then { bus with outputDeviceId := outputDeviceId }
      else bus) }

/-- Control-time state of the `AudioRoutingManager`: the persisted config
and the running mixers, keyed by mix id. -/
structure RoutingManager where
  config : AudioRoutingConfig
  mixerHandles : List (String × NativeMixer)
deriving DecidableEq

namespace RoutingManager

/-- `AudioRoutingManager.setChannelVolume(channelId, volume)`: unknown
channel → no mutation; otherwise update the config (clamped), compute the
effective volume from the updated config's `muted` and the *unclamped*
argument, and broadcast it to every mixer (mixers without the channel are
unchanged — the native call just reports failure). -/
def setChannelVolume (m : RoutingManager) (channelId : String)
    (volume : ℚ) : RoutingManager :=
  match m.config.inputChannels.find? (fun c => c.id = channelId) with
  | none => m
  | some ch =>
      let config' := updateChannelVolume m.config channelId volume
      let muted := ((config'.inputChannels.find?
        (fun c => c.id = channelId)).map (fun c => c.muted)).getD false
      let effectiveVolume : ℚ := if muted then 0 else volume
      if m.mixerHandles.isEmpty then { m with config := config' }
      else
        { config := config'
          mixerHandles := m.mixerHandles.map (fun p =>
            (p.1, (p.2.setInputGain ch.deviceName effectiveVolume).2)) }

/-- `setChannelVolumeFromHardware(channelId, hardwareValue)`:
`volume = hardwareValue / 255`. -/
def setChannelVolumeFromHardware (m : RoutingManager) (channelId : String)
    (hardwareValue : Nat) : RoutingManager :=
  m.setChannelVolume channelId ((hardwareValue : ℚ) / 255)

/-- `AudioRoutingManager.setChannelMuted(channelId, muted)`. -/
def setChannelMuted (m : RoutingManager) (channelId : String)
    (muted : Bool) : RoutingManager :=
  match m.config.inputChannels.find? (fun c => c.id = channelId) with
  | none => m
  | some ch =>
      let config' := updateChannelMuted m.config channelId muted
      let effectiveVolume : ℚ := if muted then 0 else ch.volume
      { config := config'
        mixerHandles := m.mixerHandles.map (fun p =>
          (p.1, (p.2.setInputGain ch.deviceName effectiveVolume).2)) }

/-- `AudioRoutingManager.handleHardwareChange(hardwareIndex, value)`:
look up the mapping; `channel-volume` → volume path, `channel-mute` on a
press (`value > 0`) → toggle, anything else → warn and ignore. -/
def handleHardwareChange (m : RoutingManager) (hardwareIndex : Nat)
    (value : Nat) : RoutingManager :=
  match (m.config.hardwareMapping.find?
      (fun p => p.1 = hardwareIndex)).map Prod.snd with
  | none => m
  | some mapping =>
      match mapping.type with
      | HardwareMappingType.channelVolume =>
          m.setChannelVolumeFromHardware mapping.targetId value
      | HardwareMappingType.channelMute =>
          if value > 0 then
            match m.config.inputChannels.find?
                (fun c => c.id = mapping.targetId) with
            | some channel =>
                m.setChannelMuted mapping.targetId (!channel.muted)
            | none => m
          else m
      | HardwareMappingType.mixOutput => m

/-- `AudioRoutingManager.setMixOutput(mixId, deviceId)`: update the
config; if the mix has a live mixer, stop it, resolve a null device id to
the OS default output, set the new output, and restart. -/
def setMixOutput (m : RoutingManager) (mixId : String)
    (deviceId : Option Nat) (defaultOutput : Option Nat) : RoutingManager :=
  let config' := updateMixBusOutput m.config mixId deviceId
  match m.mixerHandles.find? (fun p => p.1 = mixId) with
  | none => { m with config := config' }
  | some q =>
      let mx1 := q.2.stop
      let actual : Option Nat :=
        match deviceId with
        | some d => some d
        | none => defaultOutput
      let mx2 := match actual with
        | some d => (mx1.setOutput d).2
        | none => mx1
      let mx3 := (mx2.start defaultOutput).2
      { config := config'
        mixerHandles := m.mixerHandles.map (fun p =>
          if p.1 = mixId then (p.1, mx3) else p) }

end RoutingManager

theorem find?_updateChannelVolume (l : List InputChannelCfg) (cid : String)
    (v : ℚ) :
    (l.map (fun channel =>
      if channel.id = cid then { channel with volume := clamp01 v }
      else channel)).find? (fun c => c.id = cid) =
    (l.find? (fun c => c.id = cid)).map
      (fun c => { c with volume := clamp01 v }) := by
  induction l with
  | nil => rfl
  | cons c l ih =>
      by_cases hc : c.id = cid
      · rw [List.map_cons, if_pos hc]
        rw [List.find?_cons_of_pos _ (by simpa using hc),
          List.find?_cons_of_pos _ (by simpa using hc)]
        rfl
      · rw [List.map_cons, if_neg hc]
        rw [List.find?_cons_of_neg _ (by simpa using hc),
          List.find?_cons_of_neg _ (by simpa using hc)]
        exact ih

theorem setInputGainList_found (l : List NativeInput) (s : String) (g : ℚ) :
    ((setInputGainList l s g).2.find? (fun i => i.name = s)) =
      (l.find? (fun i => i.name = s)).map
        (fun i => { i with gain := clamp01 g }) := by
  induction l with
  | nil => rfl
  | cons ch rest ih =>
      by_cases hc : ch.name = s
      · rw [show setInputGainList (ch :: rest) s g =
          (true, { ch with gain := clamp01 g } :: rest) from by
            simp [setInputGainList, hc]]
        rw [List.find?_cons_of_pos _ (by simpa using hc),
          List.find?_cons_of_pos _ (by simpa using hc)]
        rfl
      · rw [show setInputGainList (ch :: rest) s g =
          ((setInputGainList rest s g).1,
            ch :: (setInputGainList rest s g).2) from by
            simp [setInputGainList, hc]]
        rw [List.find?_cons_of_neg _ (by simpa using hc),
          List.find?_cons_of_neg _ (by simpa using hc)]
        exact ih

theorem setInputGainList_other (l : List NativeInput) (s t : String) (g : ℚ)
    (hts : t ≠ s) :
    ((setInputGainList l s g).2.find? (fun i => i.name = t)) =
      l.find? (fun i => i.name = t) := by
  induction l with
  | nil => rfl
  | cons ch rest ih =>
      by_cases hc : ch.name = s
      · rw [show setInputGainList (ch :: rest) s g =
          (true, { ch with gain := clamp01 g } :: rest) from by
            simp [setInputGainList, hc]]
        by_cases hct : ch.name = t
        · exact absurd (hct.symm.trans hc) hts
        · rw [List.find?_cons_of_neg _ (by simpa using hct),
            List.find?_cons_of_neg _ (by simpa using hct)]
      · rw [show setInputGainList (ch :: rest) s g =
          ((setInputGainList rest s g).1,
            ch :: (setInputGainList rest s g).2) from by
            simp [setInputGainList, hc]]
        by_cases hct : ch.name = t
        · rw [List.find?_cons_of_pos _ (by simpa using hct),
            List.find?_cons_of_pos _ (by simpa using hct)]
        · rw [List.find?_cons_of_neg _ (by simpa using hct),
            List.find?_cons_of_neg _ (by simpa using hct)]
          exact ih

theorem NativeMixer.setInputGain_gainOf_self (m : NativeMixer) (s : String)
    (g : ℚ) :
    ((m.setInputGain s g).2).gainOf s =
      (m.gainOf s).map (fun _ => clamp01 g) := by
  unfold NativeMixer.setInputGain NativeMixer.gainOf
  dsimp only
  rw [setInputGainList_found]
  cases m.inputs.find? (fun i => i.name = s) <;> rfl

theorem NativeMixer.setInputGain_gainOf_other (m : NativeMixer)
    (s t : String) (g : ℚ) (hts : t ≠ s) :
    ((m.setInputGain s g).2).gainOf t = m.gainOf t := by
  unfold NativeMixer.setInputGain NativeMixer.gainOf
  dsimp only
  rw [setInputGainList_other _ _ _ _ hts]

theorem handleHardwareChange_volume (m : RoutingManager) (idx raw : Nat)
    (cid : String)
    (hmap : (m.config.hardwareMapping.find? (fun p => p.1 = idx)).map
      Prod.snd = some ⟨HardwareMappingType.channelVolume, cid⟩) :
    m.handleHardwareChange idx raw =
      m.setChannelVolume cid ((raw : ℚ) / 255) := by
  unfold RoutingManager.handleHardwareChange
  rw [hmap]
  rfl

theorem setChannelVolume_config (m : RoutingManager) (cid : String) (v : ℚ)
    (ch : InputChannelCfg)
    (hch : m.config.inputChannels.find? (fun c => c.id = cid) = some ch) :
    (m.setChannelVolume cid v).config = updateChannelVolume m.config cid v := by
  unfold RoutingManager.setChannelVolume
  rw [hch]
  dsimp only
  split <;> rfl

theorem setChannelVolume_handles (m : RoutingManager) (cid : String) (v : ℚ)
    (ch : InputChannelCfg)
    (hch : m.config.inputChannels.find? (fun c => c.id = cid) = some ch) :
    (m.setChannelVolume cid v).mixerHandles =
      if m.mixerHandles.isEmpty then m.mixerHandles
      else m.mixerHandles.map (fun p =>
        (p.1, (p.2.setInputGain ch.deviceName
          (if ch.muted then 0 else v)).2)) := by
  unfold RoutingManager.setChannelVolume
  rw [hch]
  dsimp only
  have hmut : (((updateChannelVolume m.config cid v).inputChannels.find?
      (fun c => c.id = cid)).map (fun c => c.muted)).getD false = ch.muted := by
    unfold updateChannelVolume
    dsimp only
    rw [find?_updateChannelVolume, hch]
    rfl
  rw [hmut]
  split <;> rfl

/-- C6: a hardware event `(idx, raw)` whose mapping has kind
`channel-volume` sets the target channel's configured volume to
`raw / 255` clamped to `[0, 1]`, and broadcasts the effective gain —
`0` if the channel is muted, else `raw / 255` — to every bus containing
that channel, the per-mixer gain store clamping to `[0, 1]`; mixers not
containing the channel and other inputs are unchanged. -/
theorem hardware_volume_event_updates_config_and_broadcasts
    (m : RoutingManager) (idx raw : Nat) (cid : String)
    (ch : InputChannelCfg)
    (hmap : (m.config.hardwareMapping.find? (fun p => p.1 = idx)).map
      Prod.snd = some ⟨HardwareMappingType.channelVolume, cid⟩)
    (hch : m.config.inputChannels.find? (fun c => c.id = cid) = some ch) :
    ((m.handleHardwareChange idx raw).config.inputChannels.find?
        (fun c => c.id = cid)) =
      some { ch with volume := clamp01 ((raw : ℚ) / 255) } ∧
    (∀ mid mx, (mid, mx) ∈ m.mixerHandles →
      ∃ mx', (mid, mx') ∈ (m.handleHardwareChange idx raw).mixerHandles ∧
        mx'.gainOf ch.deviceName =
          (mx.gainOf ch.deviceName).map
            (fun _ => if ch.muted then 0 else clamp01 ((raw : ℚ) / 255)) ∧
        (∀ s, s ≠ ch.deviceName → mx'.gainOf s = mx.gainOf s)) := by
  rw [handleHardwareChange_volume m idx raw cid hmap]
  constructor
  · rw [setChannelVolume_config m cid ((raw : ℚ) / 255) ch hch]
    unfold updateChannelVolume
    dsimp only
    rw [find?_updateChannelVolume, hch]
    rfl
  · intro mid mx hmem
    rw [setChannelVolume_handles m cid ((raw : ℚ) / 255) ch hch]
    have hne : ¬ m.mixerHandles.isEmpty := by
      intro hemp
      rw [List.isEmpty_iff] at hemp
      rw [hemp] at hmem
      simp at hmem
    rw [if_neg hne]
    refine ⟨(mx.setInputGain ch.deviceName
      (if ch.muted then 0 else (raw : ℚ) / 255)).2, ?_, ?_, ?_⟩
    · have := List.mem_map_of_mem (fun p : String × NativeMixer =>
        (p.1, (p.2.setInputGain ch.deviceName
          (if ch.muted then 0 else (raw : ℚ) / 255)).2)) hmem
      simpa using this
    · rw [NativeMixer.setInputGain_gainOf_self]
      have hcl : clamp01 (if ch.muted then 0 else (raw : ℚ) / 255) =
          if ch.muted then 0 else clamp01 ((raw : ℚ) / 255) := by
        by_cases hm : ch.muted
        · rw [if_pos hm, if_pos hm]
          unfold clamp01
          norm_num
        · rw [if_neg hm, if_neg hm]
      rw [hcl]
    · intro s hs
      exact NativeMixer.setInputGain_gainOf_other mx ch.deviceName s _ hs

/-- A one-channel config whose hardware index 0 maps to `channel-volume`
on channel `k1`. -/
def cfgW : AudioRoutingConfig :=
  ⟨[⟨"k1", "PCPanel K1", "K1", 0, 1, false⟩], [],
    [(0, ⟨HardwareMappingType.channelVolume, "k1"⟩)]⟩

/-- A manager over `cfgW` with one running mixer containing `PCPanel K1`. -/
def mgrW : RoutingManager :=
  ⟨cfgW, [("personal", ⟨"Personal Mix", [⟨"PCPanel K1", 1, true⟩], 1, 5,
    true⟩)]⟩

/-- Witness for C6: hardware knob 0 moved to 51 (= 1/5 of full scale). -/
theorem hardware_volume_event_updates_config_and_broadcasts_witness :
    ((mgrW.config.hardwareMapping.find? (fun p => p.1 = 0)).map Prod.snd =
      some ⟨HardwareMappingType.channelVolume, "k1"⟩ ∧
     mgrW.config.inputChannels.find? (fun c => c.id = "k1") =
      some ⟨"k1", "PCPanel K1", "K1", 0, 1, false⟩) ∧
    ((mgrW.handleHardwareChange 0 51).config.inputChannels.find?
        (fun c => c.id = "k1")) =
      some { (⟨"k1", "PCPanel K1", "K1", 0, 1, false⟩ : InputChannelCfg) with
        volume := clamp01 (((51 : Nat) : ℚ) / 255) } ∧
    (∀ mid mx, (mid, mx) ∈ mgrW.mixerHandles →
      ∃ mx', (mid, mx') ∈ (mgrW.handleHardwareChange 0 51).mixerHandles ∧
        mx'.gainOf (⟨"k1", "PCPanel K1", "K1", 0, 1, false⟩ :
            InputChannelCfg).deviceName =
          (mx.gainOf (⟨"k1", "PCPanel K1", "K1", 0, 1, false⟩ :
              InputChannelCfg).deviceName).map
            (fun _ => if (⟨"k1", "PCPanel K1", "K1", 0, 1, false⟩ :
                InputChannelCfg).muted then 0
              else clamp01 (((51 : Nat) : ℚ) / 255)) ∧
        (∀ s, s ≠ (⟨"k1", "PCPanel K1", "K1", 0, 1, false⟩ :
            InputChannelCfg).deviceName → mx'.gainOf s = mx.gainOf s)) :=
  ⟨⟨rfl, rfl⟩,
    hardware_volume_event_updates_config_and_broadcasts mgrW 0 51 "k1"
      ⟨"k1", "PCPanel K1", "K1", 0, 1, false⟩ rfl rfl⟩

/-- C7: `AudioMixer::setOutput` on a running mixer fails and leaves the
configured sink unchanged; the Routing Manager's `setMixOutput` instead
updates the config and performs stop → set the new sink (a null device id
resolving to the OS default output) → restart, leaving the bus running on
the new sink. -/
theorem set_sink_refused_while_running_and_switch_sequence
    (mx : NativeMixer) (d : Nat) (hrun : mx.running = true)
    (m : RoutingManager) (mixId : String) (deviceId dflt : Option Nat)
    (q : String × NativeMixer) (d0 : Nat)
    (hfind : m.mixerHandles.find? (fun p => p.1 = mixId) = some q)
    (hres : (match deviceId with
      | some dd => some dd
      | none => dflt) = some d0)
    (hd0 : d0 ≠ 0) :
    mx.setOutput d = (false, mx) ∧
    (m.setMixOutput mixId deviceId dflt).config =
      updateMixBusOutput m.config mixId deviceId ∧
    (∃ mx', (mixId, mx') ∈ (m.setMixOutput mixId deviceId dflt).mixerHandles ∧
      mx' = (((q.2.stop).setOutput d0).2.start dflt).2 ∧
      mx'.running = true ∧ mx'.outputDevice = d0) := by
  have hq1 : q.1 = mixId := by
    have := List.find?_some hfind
    simpa using this
  have hqmem : q ∈ m.mixerHandles := List.mem_of_find?_eq_some hfind
  have hmx3 : (m.setMixOutput mixId deviceId dflt).mixerHandles =
      m.mixerHandles.map (fun p =>
        if p.1 = mixId then
          (p.1, (((q.2.stop).setOutput d0).2.start dflt).2)
        else p) := by
    unfold RoutingManager.setMixOutput
    rw [hfind]
    dsimp only
    cases deviceId with
    | some dd =>
        have hdd : dd = d0 := by
          simpa using hres
        subst hdd
        rfl
    | none =>
        dsimp only at hres ⊢
        rw [hres]
  refine ⟨by simp [NativeMixer.setOutput, hrun], ?_, ?_⟩
  · unfold RoutingManager.setMixOutput
    rw [hfind]
  · refine ⟨(((q.2.stop).setOutput d0).2.start dflt).2, ?_, rfl, ?_, ?_⟩
    · rw [hmx3]
      have := List.mem_map_of_mem (fun p : String × NativeMixer =>
        if p.1 = mixId then
          (p.1, (((q.2.stop).setOutput d0).2.start dflt).2)
        else p) hqmem
      simpa [hq1] using this
    · simp [NativeMixer.stop, NativeMixer.setOutput, NativeMixer.start, hd0]
    · simp [NativeMixer.stop, NativeMixer.setOutput, NativeMixer.start, hd0]

/-- Witness for C7: a running mixer refuses `setOutput 7`; the manager
switch to device 7 stops, re-sinks and restarts it. -/
theorem set_sink_refused_while_running_and_switch_sequence_witness :
    ((⟨"Personal Mix", [⟨"PCPanel K1", 1, true⟩], 1, 5, true⟩ :
        NativeMixer).running = true ∧
      mgrW.mixerHandles.find? (fun p => p.1 = "personal") =
        some ("personal",
          ⟨"Personal Mix", [⟨"PCPanel K1", 1, true⟩], 1, 5, true⟩) ∧
      (match (some 7 : Option Nat) with
        | some dd => some dd
        | none => (some 2 : Option Nat)) = some 7 ∧
      (7 : Nat) ≠ 0) ∧
    (⟨"Personal Mix", [⟨"PCPanel K1", 1, true⟩], 1, 5, true⟩ :
        NativeMixer).setOutput 7 =
      (false, ⟨"Personal Mix", [⟨"PCPanel K1", 1, true⟩], 1, 5, true⟩) ∧
    (mgrW.setMixOutput "personal" (some 7) (some 2)).config =
      updateMixBusOutput mgrW.config "personal" (some 7) ∧
    (∃ mx', ("personal", mx') ∈
        (mgrW.setMixOutput "personal" (some 7) (some 2)).mixerHandles ∧
      mx' = ((((("personal",
        (⟨"Personal Mix", [⟨"PCPanel K1", 1, true⟩], 1, 5, true⟩ :
          NativeMixer)) : String × NativeMixer).2.stop).setOutput 7).2.start
            (some 2)).2 ∧
      mx'.running = true ∧ mx'.outputDevice = 7) :=
  ⟨⟨rfl, rfl, rfl, by norm_num⟩,
    set_sink_refused_while_running_and_switch_sequence
      ⟨"Personal Mix", [⟨"PCPanel K1", 1, true⟩], 1, 5, true⟩ 7 rfl
      mgrW "personal" (some 7) (some 2)
      ("personal", ⟨"Personal Mix", [⟨"PCPanel K1", 1, true⟩], 1, 5, true⟩)
      7 rfl rfl (by norm_num)⟩

/-- The loop body of `createVoiceChatMix` for one configured mix channel:
channels that are not enabled, unknown channel ids, and absent devices are
skipped; otherwise add the input, set
`gain = mixChannel.gainOverride ?? (muted ? 0 : volume)`, and enable it. -/
def addVoiceChannel (cfg : AudioRoutingConfig)
    (pcpanelDevices : List NativeAudioDevice) (mx : NativeMixer)
    (mixChannel : MixBusChannelCfg) : NativeMixer :=
  if !mixChannel.enabled then mx
  else
    match cfg.inputChannels.find? (fun c => c.id = mixChannel.channelId) with
    | none => mx
    | some channel =>
        match pcpanelDevices.find? (fun d => d.name = channel.deviceName) with
        | none => mx
        | some device =>
            let mx1 := mx.addInput device.name
            let gain := mixChannel.gainOverride.getD
              (if channel.muted then 0 else channel.volume)
            let mx2 := (mx1.setInputGain device.name gain).2
            (mx2.setInputEnabled device.name true).2

/-- `AudioRoutingManager.createVoiceChatMix(pcpanelDevices)`: skip (keeping
the manager unchanged) when the `voicechat` bus is missing from the config,
when the `PCPanel Voice Chat` endpoint is absent from the enumerated
devices, or when the bus's channel list is empty
(`voiceChatMix.channels.length === 0`); otherwise create the mixer, add
the enabled member channels, set its output to the Voice Chat endpoint and
start it. -/
def RoutingManager.createVoiceChatMix (m : RoutingManager)
    (devices : List NativeAudioDevice) (dflt : Option Nat) : RoutingManager :=
  match m.config.mixBuses.find? (fun b => b.id = "voicechat") with
  | none => m
  | some voiceChatMix =>
      match devices.find? (fun d => d.name = "PCPanel Voice Chat") with
      | none => m
      | some voiceChatDevice =>
          if voiceChatMix.channels.length = 0 then m
          else
            let pcpanel := devices.filter
              (fun d => d.name.startsWith "PCPanel")
            let mx1 := voiceChatMix.channels.foldl
              (addVoiceChannel m.config pcpanel) (createMixer "Voice Chat Mix")
            let mx2 := (mx1.setOutput voiceChatDevice.id).2
            let mx3 := (mx2.start dflt).2
            { m with
              mixerHandles := m.mixerHandles ++ [("voicechat", mx3)] }

/-- A `voicechat` bus whose single member is present but not enabled. -/
def vcBusDisabled : MixBusCfg :=
  ⟨"voicechat", "Voice Chat Mix", none, [⟨"k1", false, none⟩]⟩

/-- A config holding `vcBusDisabled` and one input channel. -/
def cfgVC : AudioRoutingConfig :=
  ⟨[⟨"k1", "PCPanel K1", "K1", 0, 1, false⟩], [vcBusDisabled], []⟩

/-- A manager over `cfgVC` with no live mixers yet. -/
def mgrVC : RoutingManager := ⟨cfgVC, []⟩

/-- The enumerated devices: the Voice Chat endpoint and one panel device. -/
def devicesVC : List NativeAudioDevice :=
  [⟨9, "PCPanel Voice Chat", true, true⟩, ⟨3, "PCPanel K1", true, false⟩]

/-- Counterexample to C8 as stated: with the Voice Chat endpoint present
and a voicechat bus whose members are all disabled (so it has no enabled
members), `createVoiceChatMix` nevertheless creates and starts the bus —
the code only skips creation when the member list is empty
(`channels.length === 0`). -/
theorem voicechat_no_enabled_members_still_started :
    ((mgrVC.config.mixBuses.find? (fun b => b.id = "voicechat")).map
      (fun b => b.channels.all (fun c => !c.enabled))) = some true ∧
    (mgrVC.createVoiceChatMix devicesVC none).mixerHandles =
      [("voicechat", ⟨"Voice Chat Mix", [], 1, 9, true⟩)] ∧
    ((mgrVC.createVoiceChatMix devicesVC none).mixerHandles.find?
      (fun p => p.1 = "voicechat")).map (fun p => p.2.running) =
        some true := by
  refine ⟨rfl, ?_, ?_⟩ <;> rfl

theorem addVoiceChannel_running (cfg : AudioRoutingConfig)
    (pc : List NativeAudioDevice) (mx : NativeMixer)
    (c : MixBusChannelCfg) :
    (addVoiceChannel cfg pc mx c).running = mx.running := by
  unfold addVoiceChannel
  split
  · rfl
  · split
    · rfl
    · split
      · rfl
      · show ((((mx.addInput _).setInputGain _ _).2.setInputEnabled _
          _).2).running = mx.running
        unfold NativeMixer.addInput NativeMixer.setInputGain
          NativeMixer.setInputEnabled
        dsimp only
        split <;> rfl

theorem foldVoice_running (cfg : AudioRoutingConfig)
    (pc : List NativeAudioDevice) (l : List MixBusChannelCfg)
    (mx : NativeMixer) :
    (l.foldl (addVoiceChannel cfg pc) mx).running = mx.running := by
  induction l generalizing mx with
  | nil => rfl
  | cons c l ih =>
      show (l.foldl (addVoiceChannel cfg pc)
        (addVoiceChannel cfg pc mx c)).running = mx.running
      rw [ih, addVoiceChannel_running]

/-- C8, amended: during initialization, if the Voice Chat endpoint is
absent from the enumerated devices or the voicechat bus's member list is
empty, the voicechat bus is not created or started while its configuration
is retained unchanged; when the endpoint is present and the member list is
non-empty (whether or not any member is enabled — only enabled members are
added as inputs) the bus is created and started on the Voice Chat
endpoint. -/
theorem voicechat_creation_skips_and_starts
    (m : RoutingManager) (devices : List NativeAudioDevice)
    (dflt : Option Nat) (vc : MixBusCfg)
    (hvc : m.config.mixBuses.find? (fun b => b.id = "voicechat") = some vc) :
    (devices.find? (fun d => d.name = "PCPanel Voice Chat") = none →
      m.createVoiceChatMix devices dflt = m) ∧
    (vc.channels.length = 0 → m.createVoiceChatMix devices dflt = m) ∧
    (∀ dev, devices.find? (fun d => d.name = "PCPanel Voice Chat") =
        some dev →
      vc.channels.length ≠ 0 → dev.id ≠ 0 →
      (m.createVoiceChatMix devices dflt).config = m.config ∧
      ∃ mx, ("voicechat", mx) ∈
          (m.createVoiceChatMix devices dflt).mixerHandles ∧
        mx.running = true ∧ mx.outputDevice = dev.id) := by
  refine ⟨?_, ?_, ?_⟩
  · intro hdev
    unfold RoutingManager.createVoiceChatMix
    rw [hvc, hdev]
  · intro hlen
    unfold RoutingManager.createVoiceChatMix
    rw [hvc]
    cases hdev : devices.find? (fun d => d.name = "PCPanel Voice Chat") with
    | none => rfl
    | some dev =>
        dsimp only
        rw [if_pos hlen]
  · intro dev hdev hlen hid
    have hmx1run : (vc.channels.foldl
        (addVoiceChannel m.config
          (devices.filter (fun d => d.name.startsWith "PCPanel")))
        (createMixer "Voice Chat Mix")).running = false := by
      rw [foldVoice_running]
      rfl
    have hunf : m.createVoiceChatMix devices dflt =
        { m with
          mixerHandles := m.mixerHandles ++ [("voicechat",
            (((vc.channels.foldl
              (addVoiceChannel m.config
                (devices.filter (fun d => d.name.startsWith "PCPanel")))
              (createMixer "Voice Chat Mix")).setOutput
                dev.id).2.start dflt).2)] } := by
      unfold RoutingManager.createVoiceChatMix
      rw [hvc, hdev]
      dsimp only
      rw [if_neg hlen]
    rw [hunf]
    refine ⟨rfl, ?_⟩
    set mx1 := vc.channels.foldl
      (addVoiceChannel m.config
        (devices.filter (fun d => d.name.startsWith "PCPanel")))
      (createMixer "Voice Chat Mix") with hmx1
    have hset : (mx1.setOutput dev.id).2 =
        { mx1 with outputDevice := dev.id } := by
      unfold NativeMixer.setOutput
      rw [if_neg (by rw [hmx1run]; exact Bool.false_ne_true)]
    have hstart : (({ mx1 with outputDevice := dev.id } :
        NativeMixer).start dflt).2 =
        { mx1 with outputDevice := dev.id, running := true } := by
      unfold NativeMixer.start
      dsimp only
      rw [if_neg (by rw [hmx1run]; exact Bool.false_ne_true),
        if_neg hid, if_neg hid]
    refine ⟨{ mx1 with outputDevice := dev.id, running := true }, ?_, rfl,
      rfl⟩
    rw [hset, hstart]
    dsimp only
    exact List.mem_append_right _ (List.mem_singleton_self _)

/-- Witness for the amended C8 at the concrete config `cfgVC`. -/
theorem voicechat_creation_skips_and_starts_witness :
    mgrVC.config.mixBuses.find? (fun b => b.id = "voicechat") =
      some vcBusDisabled ∧
    ((devicesVC.find? (fun d => d.name = "PCPanel Voice Chat") = none →
      mgrVC.createVoiceChatMix devicesVC none = mgrVC) ∧
    (vcBusDisabled.channels.length = 0 →
      mgrVC.createVoiceChatMix devicesVC none = mgrVC) ∧
    (∀ dev, devicesVC.find? (fun d => d.name = "PCPanel Voice Chat") =
        some dev →
      vcBusDisabled.channels.length ≠ 0 → dev.id ≠ 0 →
      (mgrVC.createVoiceChatMix devicesVC none).config = mgrVC.config ∧
      ∃ mx, ("voicechat", mx) ∈
          (mgrVC.createVoiceChatMix devicesVC none).mixerHandles ∧
        mx.running = true ∧ mx.outputDevice = dev.id)) :=
  ⟨rfl, voicechat_creation_skips_and_starts mgrVC devicesVC none
    vcBusDisabled rfl⟩
